import Mathlib

/-!
Verification of the reversi_tournament engine: a shallow embedding of the
board model (`rt/state.py`), the alpha-beta search agent (`rt/agent.py`) and
the protocol engine (`rt/engine.py`), together with proofs of the stated
correctness properties.

Bitboards are embedded as `Nat` (Python arbitrary-precision ints), board
coordinates as `Int` (Python ints, which may go negative during the
direction scans), scores as `Int`.  Bounded loops from the source are
embedded structurally with an explicit step budget equal to the bound in
the source, so that every definition is executable by the kernel.
-/

deriving instance DecidableEq for Except

namespace RT

/-- Board size, `BOARD_SIZE = 8` in `rt/state.py`. -/
def BOARD_SIZE : Int := 8

/-- Embedding of `is_inbounds(row, col)` from `rt/state.py`. -/
def is_inbounds (row col : Int) : Bool :=
  row ≥ 0 && row < BOARD_SIZE && col ≥ 0 && col < BOARD_SIZE

/-- Embedding of `rc2ind(row, col)` from `rt/state.py`. -/
def rc2ind (row col : Int) : Int :=
  row * BOARD_SIZE + col

/-- Embedding of `ind2board(ind)` from `rt/state.py`: `1 << ind`. -/
def ind2board (ind : Int) : Nat :=
  1 <<< ind.toNat

/-- Embedding of `rc2board(row, col)` from `rt/state.py`. -/
def rc2board (row col : Int) : Nat :=
  ind2board (rc2ind row col)

/-- Embedding of `is_occupied(row, col, board)` from `rt/state.py`. -/
def is_occupied (row col : Int) (board : Nat) : Bool :=
  rc2board row col &&& board != 0

/-- Embedding of the generator `iter_board()` from `rt/state.py`:
all 64 `(row, col)` pairs in row-major order. -/
def iter_board : List (Int × Int) :=
  (List.range 8).flatMap fun row =>
    (List.range 8).map fun col => (Int.ofNat row, Int.ofNat col)

/-- Embedding of the `Player` enum from `rt/state.py`. -/
inductive Player where
  | Black
  | White
deriving DecidableEq

/-- Embedding of `Player.opponent` from `rt/state.py`. -/
def Player.opponent : Player → Player
  | .Black => .White
  | .White => .Black

/-- The `value` of the `Player` enum member: `"b"` or `"w"`. -/
def Player.value : Player → String
  | .Black => "b"
  | .White => "w"

/-- Embedding of the `Move` dataclass from `rt/state.py`. -/
structure Move where
  row : Int
  col : Int
  flip_board : Nat
  player : Player
deriving DecidableEq

/-- The loop body of `find_flips_along_direction` from `rt/state.py`:
`fuel` many iterations remain of the loop `for i in range(1, BOARD_SIZE)`,
`i` is the current loop index and `pattern` the accumulator.  When the loop
runs out (`fuel = 0`) the function returns 0, as after the Python loop. -/
def ffadAux (row col dr dc : Int) (my_board opponent_board : Nat) :
    Nat → Int → Nat → Nat
  | 0, _, _ => 0
  | fuel + 1, i, pattern =>
    let r := row + dr * i
    let c := col + dc * i
    if is_inbounds r c = false then 0
    else if is_occupied r c my_board then pattern
    else if is_occupied r c opponent_board then
      ffadAux row col dr dc my_board opponent_board fuel (i + 1)
        (pattern ||| rc2board r c)
    else 0

/-- Embedding of `find_flips_along_direction(row, col, dr, dc, my_board,
opponent_board)` from `rt/state.py`: the scan loop starts at `i = 1` and
runs at most `BOARD_SIZE - 1 = 7` iterations. -/
def find_flips_along_direction (row col dr dc : Int)
    (my_board opponent_board : Nat) : Nat :=
  ffadAux row col dr dc my_board opponent_board 7 1 0

/-- Embedding of `find_flips(row, col, my_board, opponent_board)` from
`rt/state.py`, with the eight directions in source order. -/
def find_flips (row col : Int) (my_board opponent_board : Nat) : Nat :=
  find_flips_along_direction row col 0 1 my_board opponent_board
  ||| find_flips_along_direction row col 0 (-1) my_board opponent_board
  ||| find_flips_along_direction row col 1 0 my_board opponent_board
  ||| find_flips_along_direction row col (-1) 0 my_board opponent_board
  ||| find_flips_along_direction row col (-1) (-1) my_board opponent_board
  ||| find_flips_along_direction row col 1 (-1) my_board opponent_board
  ||| find_flips_along_direction row col (-1) 1 my_board opponent_board
  ||| find_flips_along_direction row col 1 1 my_board opponent_board

/-- Embedding of `find_moves(player, my_board, opponent_board)` from
`rt/state.py`: for every empty cell whose flip pattern is non-empty,
emit a move, in `iter_board` order. -/
def find_moves (player : Player) (my_board opponent_board : Nat) : List Move :=
  iter_board.filterMap fun rc =>
    if is_occupied rc.1 rc.2 my_board = false ∧
        is_occupied rc.1 rc.2 opponent_board = false then
      let flip_board := find_flips rc.1 rc.2 my_board opponent_board
      if flip_board ≠ 0 then some ⟨rc.1, rc.2, flip_board, player⟩ else none
    else none

/-- Embedding of `col_to_string(col)` from `rt/state.py`: `chr(col + ord("a"))`. -/
def col_to_string (col : Int) : String :=
  String.mk [Char.ofNat (col + 97).toNat]

/-- Embedding of `parse_move_string(move)` from `rt/state.py`.  A Python
`ValueError` is embedded as `Except.error`.  `int(row)` on a single
character succeeds exactly on a decimal digit; `move.lower()` lowercases
each character. -/
def parse_move_string (move : String) :
    Except String (Int × Int × Player) :=
  match move.data.map Char.toLower with
  | [colc, rowc, pc] =>
    let col : Int := (colc.toNat : Int) - 97
    if rowc.isDigit then
      let row : Int := ((rowc.toNat : Int) - 48) - 1
      if is_inbounds row col = false ∨ (pc ≠ 'b' ∧ pc ≠ 'w') then
        Except.error ("invalid move: " ++ move)
      else
        Except.ok (row, col, if pc = 'b' then Player.Black else Player.White)
    else Except.error ("invalid move: " ++ move)
  | _ => Except.error ("invalid move: " ++ move)

/-- Embedding of the `GameState` class from `rt/state.py` (immutable value:
every mutation in the source happens on a freshly constructed state). -/
structure GameState where
  black_board : Nat
  white_board : Nat
  last_played : Player
deriving DecidableEq

/-- Embedding of `GameState.start_position()` from `rt/state.py`
(the default constructor sets `last_played = Player.White`). -/
def GameState.start_position : GameState :=
  ⟨rc2board 3 4 ||| rc2board 4 3, rc2board 3 3 ||| rc2board 4 4, Player.White⟩

/-- Embedding of `possible_moves(state, player)` from `rt/state.py`
(the `lru_cache` is a pure memoization and is dropped). -/
def GameState.possible_moves (state : GameState) (player : Player) : List Move :=
  match player with
  | .Black => find_moves player state.black_board state.white_board
  | .White => find_moves player state.white_board state.black_board

/-- Embedding of `GameState.next_player()` from `rt/state.py`. -/
def GameState.next_player (state : GameState) : Option Player :=
  match state.last_played with
  | .Black =>
    if (state.possible_moves .White).length > 0 then some .White
    else if (state.possible_moves .Black).length > 0 then some .Black
    else none
  | .White =>
    if (state.possible_moves .Black).length > 0 then some .Black
    else if (state.possible_moves .White).length > 0 then some .White
    else none

/-- Embedding of `GameState._place_token(row, col, player)` from
`rt/state.py`, as a function on the freshly constructed state. -/
def GameState.place_token (state : GameState) (row col : Int)
    (player : Player) : GameState :=
  match player with
  | .Black => ⟨state.black_board ||| rc2board row col, state.white_board,
      state.last_played⟩
  | .White => ⟨state.black_board, state.white_board ||| rc2board row col,
      state.last_played⟩

/-- Embedding of `GameState.make_move(move)` from `rt/state.py`:
construct the new state with `last_played = move.player`, place the
mover's token, then XOR the flip pattern into both boards. -/
def GameState.make_move (state : GameState) (move : Move) : GameState :=
  let new_state := GameState.mk state.black_board state.white_board move.player
  let new_state := new_state.place_token move.row move.col move.player
  ⟨new_state.black_board ^^^ move.flip_board,
   new_state.white_board ^^^ move.flip_board,
   new_state.last_played⟩

/-- Population count with an explicit structural budget; `popcountAux n n`
counts the 1-bits of `n` exactly as `bin(n).count("1")` does. -/
def popcountAux : Nat → Nat → Nat
  | 0, _ => 0
  | fuel + 1, n => if n = 0 then 0 else popcountAux fuel (n / 2) + n % 2

/-- Embedding of `bin(board).count("1")` from `GameState.count` in
`rt/state.py`: the number of 1-bits of `n`. -/
def popcount (n : Nat) : Nat :=
  popcountAux n n

/-- Embedding of `GameState.count(player)` from `rt/state.py`. -/
def GameState.count (state : GameState) (player : Player) : Nat :=
  match player with
  | .Black => popcount state.black_board
  | .White => popcount state.white_board

/-- Embedding of `Move.from_str(move, state)` from `rt/state.py`: parse the
token, then recompute the flip pattern against the given state for the
parsed player. -/
def Move.from_str (move : String) (state : GameState) : Except String Move :=
  match parse_move_string move with
  | .error e => Except.error e
  | .ok (row, col, player) =>
    match player with
    | .Black => Except.ok ⟨row, col,
        find_flips row col state.black_board state.white_board, .Black⟩
    | .White => Except.ok ⟨row, col,
        find_flips row col state.white_board state.black_board, .White⟩

/-- Embedding of `Move.__str__` from `rt/state.py`:
`f"{col_to_string(self.col)}{self.row + 1}{self.player.value}"`. -/
def Move.to_string (m : Move) : String :=
  col_to_string m.col ++ toString (m.row + 1) ++ m.player.value

/-- The bit-set of `player` in `state` (`black_board` for Black,
`white_board` for White); analysis helper used to state the symmetric
facts about both players once. -/
def player_board (state : GameState) (player : Player) : Nat :=
  match player with
  | .Black => state.black_board
  | .White => state.white_board

/-- States reachable from the start position by repeatedly applying a move
that `possible_moves` produces for the player `next_player` designates;
the `Nat` index counts the moves applied. -/
inductive Reachable : GameState → Nat → Prop where
  | start : Reachable GameState.start_position 0
  | step {s : GameState} {n : Nat} {p : Player} {m : Move} :
      Reachable s n → s.next_player = some p → m ∈ s.possible_moves p →
      Reachable (s.make_move m) (n + 1)

/-! ### The search agent, `rt/agent.py` -/

/-- Embedding of `INF_SCORE = 65` from `rt/agent.py`. -/
def INF_SCORE : Int := 65

/-- Embedding of the `DfsResult` dataclass from `rt/agent.py` (the Python
`tuple[Move]` of moves is embedded as a list). -/
structure DfsResult where
  moves : List Move
  score : Int
  remaining : Bool
deriving DecidableEq

/-- Embedding of `score_func(state, player)` from `rt/agent.py`. -/
def score_func (state : GameState) (player : Player) : Int :=
  (state.count player : Int) - (state.count player.opponent : Int)

/-- Embedding of the move-ordering step of `dfs_alpha_beta`: when the
previous best variation has a move at this depth, Python's stable
`moves.sort(key=lambda e: e != previous_best_move)` partitions the list,
keeping moves equal to the previous best move first. -/
def order_moves (depth : Nat) (prev_best_variation : List Move)
    (moves : List Move) : List Move :=
  if h : depth < prev_best_variation.length then
    let previous_best_move := prev_best_variation.get ⟨depth, h⟩
    moves.filter (fun e => e == previous_best_move) ++
      moves.filter (fun e => e != previous_best_move)
  else moves

/-- The maximizing loop of `dfs_alpha_beta` from `rt/agent.py`.  `search`
is the recursive call at `depth + 1` with the given alpha (beta is fixed
in this loop); the accumulators are the loop variables of the source:
`alpha`, `score`, `best_moves` and `remaining`.  The `break` on
`res.score >= beta` returns immediately. -/
def max_loop (search : GameState → Int → DfsResult) (state : GameState)
    (beta : Int) : List Move → Int → Int → List Move → Bool → DfsResult
  | [], _, score, best_moves, remaining => ⟨best_moves, score, remaining⟩
  | m :: ms, alpha, score, best_moves, remaining =>
    let res := search (state.make_move m) alpha
    let remaining := remaining || res.remaining
    let best_moves := if res.score > score then m :: res.moves else best_moves
    let score := if res.score > score then res.score else score
    let alpha := max alpha score
    if res.score ≥ beta then ⟨best_moves, score, remaining⟩
    else max_loop search state beta ms alpha score best_moves remaining

/-- The minimizing loop of `dfs_alpha_beta` from `rt/agent.py`, symmetric
to `max_loop` with `beta` as the evolving bound and a `break` on
`res.score <= alpha`. -/
def min_loop (search : GameState → Int → DfsResult) (state : GameState)
    (alpha : Int) : List Move → Int → Int → List Move → Bool → DfsResult
  | [], _, score, best_moves, remaining => ⟨best_moves, score, remaining⟩
  | m :: ms, beta, score, best_moves, remaining =>
    let res := search (state.make_move m) beta
    let remaining := remaining || res.remaining
    let best_moves := if res.score < score then m :: res.moves else best_moves
    let score := if res.score < score then res.score else score
    let beta := min beta score
    if res.score ≤ alpha then ⟨best_moves, score, remaining⟩
    else min_loop search state alpha ms beta score best_moves remaining

/-- The recursion of `dfs_alpha_beta` from `rt/agent.py`, structural on
the remaining depth budget `fuel = max_depth - depth`: `fuel = 0` holds
exactly when `depth >= max_depth` (the depth-cutoff leaf), and each
recursive call at `depth + 1` runs on `fuel - 1`. -/
def dfsGo (player : Player) (max_depth : Nat) (prev_best_variation : List Move) :
    Nat → GameState → Int → Int → Nat → DfsResult
  | 0, state, _, _, _ =>
    ⟨[], score_func state player, true⟩
  | fuel + 1, state, alpha, beta, depth =>
    match state.next_player with
    | none => ⟨[], score_func state player, false⟩
    | some next_player =>
      let maximizing_player := next_player = player
      let moves := order_moves depth prev_best_variation
        (state.possible_moves next_player)
      if maximizing_player then
        max_loop
          (fun s a => dfsGo player max_depth prev_best_variation fuel s a beta
            (depth + 1))
          state beta moves alpha (-INF_SCORE) [] false
      else
        min_loop
          (fun s b => dfsGo player max_depth prev_best_variation fuel s alpha b
            (depth + 1))
          state alpha moves beta INF_SCORE [] false

/-- Embedding of `dfs_alpha_beta(state, alpha, beta, depth, player,
max_depth, prev_best_variation)` from `rt/agent.py`; see `dfs_alpha_beta_eq`
for the recurrence exactly as in the source. -/
def dfs_alpha_beta (state : GameState) (alpha beta : Int) (depth : Nat)
    (player : Player) (max_depth : Nat)
    (prev_best_variation : List Move) : DfsResult :=
  dfsGo player max_depth prev_best_variation (max_depth - depth) state alpha
    beta depth

/-- The loop of `iterative_deepening` from `rt/agent.py`:
`for current_depth in range(1, max_depth + 1)` with `iters` iterations
remaining; falling out of the loop returns Python's implicit `None`. -/
def id_go (state : GameState) (player : Player) (max_depth : Nat) :
    Nat → Nat → List Move → Option DfsResult
  | 0, _, _ => none
  | iters + 1, current_depth, prev_best_variation =>
    let res := dfs_alpha_beta state (-INF_SCORE) INF_SCORE 0 player
      current_depth prev_best_variation
    if !res.remaining || current_depth == max_depth then some res
    else id_go state player max_depth iters (current_depth + 1) res.moves

/-- Embedding of `iterative_deepening(state, player, max_depth)` from
`rt/agent.py` (default `max_depth = 3`). -/
def iterative_deepening (state : GameState) (player : Player)
    (max_depth : Nat := 3) : Option DfsResult :=
  id_go state player max_depth max_depth 1 []

/-! ### Instrumented search

`dfsIGo` is `dfsGo` instrumented to also return, in exploration order, one
Boolean per leaf reached by the search pass: `true` when the leaf is a
state whose `next_player` is `none` (a true game-tree leaf), `false` when
the leaf was produced by the depth cutoff. -/

/-- `max_loop` instrumented with the list of explored leaves. -/
def max_loopI (search : GameState → Int → DfsResult × List Bool)
    (state : GameState) (beta : Int) :
    List Move → Int → Int → List Move → Bool → List Bool →
      DfsResult × List Bool
  | [], _, score, best_moves, remaining, leaves =>
    (⟨best_moves, score, remaining⟩, leaves)
  | m :: ms, alpha, score, best_moves, remaining, leaves =>
    let resl := search (state.make_move m) alpha
    let res := resl.1
    let leaves := leaves ++ resl.2
    let remaining := remaining || res.remaining
    let best_moves := if res.score > score then m :: res.moves else best_moves
    let score := if res.score > score then res.score else score
    let alpha := max alpha score
    if res.score ≥ beta then (⟨best_moves, score, remaining⟩, leaves)
    else max_loopI search state beta ms alpha score best_moves remaining leaves

/-- `min_loop` instrumented with the list of explored leaves. -/
def min_loopI (search : GameState → Int → DfsResult × List Bool)
    (state : GameState) (alpha : Int) :
    List Move → Int → Int → List Move → Bool → List Bool →
      DfsResult × List Bool
  | [], _, score, best_moves, remaining, leaves =>
    (⟨best_moves, score, remaining⟩, leaves)
  | m :: ms, beta, score, best_moves, remaining, leaves =>
    let resl := search (state.make_move m) beta
    let res := resl.1
    let leaves := leaves ++ resl.2
    let remaining := remaining || res.remaining
    let best_moves := if res.score < score then m :: res.moves else best_moves
    let score := if res.score < score then res.score else score
    let beta := min beta score
    if res.score ≤ alpha then (⟨best_moves, score, remaining⟩, leaves)
    else min_loopI search state alpha ms beta score best_moves remaining leaves

/-- `dfsGo` instrumented with the list of explored leaves. -/
def dfsIGo (player : Player) (max_depth : Nat)
    (prev_best_variation : List Move) :
    Nat → GameState → Int → Int → Nat → DfsResult × List Bool
  | 0, state, _, _, _ =>
    (⟨[], score_func state player, true⟩, [false])
  | fuel + 1, state, alpha, beta, depth =>
    match state.next_player with
    | none => (⟨[], score_func state player, false⟩, [true])
    | some next_player =>
      let maximizing_player := next_player = player
      let moves := order_moves depth prev_best_variation
        (state.possible_moves next_player)
      if maximizing_player then
        max_loopI
          (fun s a => dfsIGo player max_depth prev_best_variation fuel s a beta
            (depth + 1))
          state beta moves alpha (-INF_SCORE) [] false []
      else
        min_loopI
          (fun s b => dfsIGo player max_depth prev_best_variation fuel s alpha b
            (depth + 1))
          state alpha moves beta INF_SCORE [] false []

/-- `dfs_alpha_beta` instrumented with the list of explored leaves. -/
def dfsI_alpha_beta (state : GameState) (alpha beta : Int) (depth : Nat)
    (player : Player) (max_depth : Nat)
    (prev_best_variation : List Move) : DfsResult × List Bool :=
  dfsIGo player max_depth prev_best_variation (max_depth - depth) state alpha
    beta depth

/-- Modelled from the spec, for comparison with `dfs_alpha_beta`: the
"exhaustive unpruned depth-limited minimax over the same state, the same
depth limit, the same evaluation function `score_func`, and the same move
sets" — the same recursion as `dfs_alpha_beta` with the alpha-beta window,
pruning and move ordering removed; structural on
`fuel = max_depth - depth`. -/
def mmGo (player : Player) : Nat → GameState → Int
  | 0, state => score_func state player
  | fuel + 1, state =>
    match state.next_player with
    | none => score_func state player
    | some next_player =>
      let moves := state.possible_moves next_player
      if next_player = player then
        moves.foldl (fun acc m => max acc (mmGo player fuel (state.make_move m)))
          (-INF_SCORE)
      else
        moves.foldl (fun acc m => min acc (mmGo player fuel (state.make_move m)))
          INF_SCORE

/-- Modelled from the spec: exhaustive unpruned depth-limited minimax,
with the same depth-cutoff and game-over leaves as `dfs_alpha_beta`. -/
def unpruned_minimax (state : GameState) (depth : Nat) (player : Player)
    (max_depth : Nat) : Int :=
  mmGo player (max_depth - depth) state

/-! ### Ray scans

Helper functions used to reason about `find_flips_along_direction`:
`runLen` computes where the scan starting at index `i` first leaves the
run of in-bounds opponent cells, and `rayBits` collects the board bits of
a segment of the ray. -/

/-- First index `j ≥ i` (within `fuel` steps) at which the ray cell is not
an in-bounds cell occupied by `opponent_board`. -/
def runLen (row col dr dc : Int) (opponent_board : Nat) : Nat → Int → Int
  | 0, i => i
  | fuel + 1, i =>
    let r := row + dr * i
    let c := col + dc * i
    if is_inbounds r c && is_occupied r c opponent_board then
      runLen row col dr dc opponent_board fuel (i + 1)
    else i

/-- The union of the board bits of ray cells `i, i+1, …, i+n-1`. -/
def rayBits (row col dr dc : Int) : Nat → Int → Nat
  | 0, _ => 0
  | n + 1, i => rc2board (row + dr * i) (col + dc * i) |||
      rayBits row col dr dc n (i + 1)

/-! ### The protocol engine, `rt/engine.py` -/

/-- The `Engine.State` enum from `rt/engine.py`. -/
inductive EState where
  | Uninitialized
  | AwaitingNewGame
  | NewGameCompleted
  | AwaitingPosition
  | PositionParsed
  | AwaitingGo
deriving DecidableEq

/-- The agent as the protocol engine sees it: `agent_factory(player)`
yields an agent for `player` with no state; `set_state` fills in `state`.
(The concrete search behaviour is a parameter of the model.) -/
structure AgentM where
  player : Player
  state : Option GameState
deriving DecidableEq

/-- The mutable fields of the `Engine` class from `rt/engine.py`. -/
structure EngineM where
  state : EState
  game_state : Option GameState
  agent : Option AgentM
deriving DecidableEq

/-- The Python exceptions that can escape the code under `Engine.parse`:
`EngineError` is the protocol error the read loop catches; every other
constructor is an exception `Engine.run` does not catch. -/
inductive PyErr where
  | engineError (msg : String)
  | valueError (msg : String)
  | indexError (msg : String)
  | typeError (msg : String)
  | attributeError (msg : String)
deriving DecidableEq

/-- Helper for `tokens`: split a character list at whitespace, dropping
empty fields, accumulating the current field in reverse. -/
def tokensAux : List Char → List Char → List String
  | [], acc => if acc = [] then [] else [String.mk acc.reverse]
  | c :: cs, acc =>
    if c.isWhitespace then
      if acc = [] then tokensAux cs []
      else String.mk acc.reverse :: tokensAux cs []
    else tokensAux cs (c :: acc)

/-- Python `msg.split()`: split on whitespace runs, dropping empties. -/
def tokens (msg : String) : List String :=
  tokensAux msg.data []

/-- Helper for Python `s.split(sep)` with a one-character separator:
split at every separator, keeping empty fields. -/
def splitOnCharAux (sep : Char) : List Char → List Char → List String
  | [], acc => [String.mk acc.reverse]
  | c :: cs, acc =>
    if c = sep then String.mk acc.reverse :: splitOnCharAux sep cs []
    else splitOnCharAux sep cs (c :: acc)

/-- Python `s.split("=")` (for the one-character separator `=`). -/
def splitOnChar (sep : Char) (s : String) : List String :=
  splitOnCharAux sep s.data []

/-- Python `s.strip()`: drop leading and trailing whitespace. -/
def pyStrip (s : String) : String :=
  String.mk (((s.data.dropWhile Char.isWhitespace).reverse.dropWhile
    Char.isWhitespace).reverse)

/-- Python `s.lower()` (ASCII case is all the protocol uses). -/
def pyLower (s : String) : String :=
  String.mk (s.data.map Char.toLower)

/-- Embedding of `expect(expected, actual)` from `rt/engine.py`. -/
def expect (expected actual : String) : Option PyErr :=
  if expected ≠ actual then
    some (.engineError ("expected: " ++ expected ++ ", got: " ++ actual))
  else none

/-- Embedding of `Engine.setup_agent(args)` from `rt/engine.py`. -/
def setup_agent (args : List String) : Except PyErr AgentM :=
  if args.length ≠ 1 then .error (.engineError "invalid newgame args")
  else
    match args with
    | [a] =>
      let p := pyLower a
      if p ≠ "b" ∧ p ≠ "w" then .error (.engineError "invalid newgame args")
      else .ok ⟨if p = "b" then Player.Black else Player.White, none⟩
    | _ => .error (.engineError "invalid newgame args")

/-- Python `int(s)` on the value part of a `key=value` argument: an
optional sign followed by a non-empty digit string. -/
def pyInt (s : String) : Option Int :=
  let digitsVal : List Char → Int :=
    fun ds => ds.foldl (fun a c => a * 10 + ((c.toNat : Int) - 48)) 0
  match s.data with
  | '-' :: ds =>
    if ds ≠ [] ∧ ds.all Char.isDigit then some (-(digitsVal ds)) else none
  | '+' :: ds =>
    if ds ≠ [] ∧ ds.all Char.isDigit then some (digitsVal ds) else none
  | ds =>
    if ds ≠ [] ∧ ds.all Char.isDigit then some (digitsVal ds) else none

/-- The `kwargs` dictionary built by `Engine.send_best_move`, tracking the
four expected keys and whether any other key was inserted. -/
structure GoArgs where
  btime : Option Int
  wtime : Option Int
  binc : Option Int
  winc : Option Int
  unknown : Bool
deriving DecidableEq

/-- `kwargs[key] = int(value)` for one `key=value` pair. -/
def addKwarg (k : String) (v : Int) (g : GoArgs) : GoArgs :=
  if k = "btime" then { g with btime := some v }
  else if k = "wtime" then { g with wtime := some v }
  else if k = "binc" then { g with binc := some v }
  else if k = "winc" then { g with winc := some v }
  else { g with unknown := true }

/-- The `for a in args` loop of `Engine.send_best_move`: each argument is
split on `=` into exactly two parts (otherwise the tuple unpacking raises
`ValueError`) and the value converted by `int` (raising `ValueError` on
failure). -/
def parse_kwargs : List String → GoArgs → Except PyErr GoArgs
  | [], g => .ok g
  | a :: rest, g =>
    match splitOnChar '=' a with
    | [k, v] =>
      match pyInt v with
      | some n => parse_kwargs rest (addKwarg k n g)
      | none => .error (.valueError ("invalid literal for int: " ++ v))
    | _ => .error (.valueError "unpack")

/-- Embedding of `Engine.send_best_move(args)` from `rt/engine.py`,
parameterised by the agent's search function: validates the argument
count, builds `kwargs`, then calls `self.agent.search(**kwargs)` (an
`AttributeError` if the agent is `None`, a `TypeError` if the keyword
arguments do not match the `search` signature). -/
def send_best_move (search_fn : AgentM → Int → Int → Int → Int → String)
    (agent : Option AgentM) (args : List String) : Except PyErr String :=
  if args.length ≠ 4 then .error (.engineError "invalid go args")
  else
    match parse_kwargs args ⟨none, none, none, none, false⟩ with
    | .error err => .error err
    | .ok g =>
      match agent with
      | none => .error (.attributeError "search")
      | some a =>
        match g with
        | ⟨some bt, some wt, some bi, some wi, false⟩ =>
          .ok (search_fn a bt wt bi wi)
        | _ => .error (.typeError "search() keyword arguments")

/-- The replay loop of `Engine.parse_position`: each token is parsed by
`Move.from_str` against the current replay state (`ValueError` on a
malformed token) and the move applied by `make_move`. -/
def replay_moves : GameState → List String → Except PyErr GameState
  | state, [] => .ok state
  | state, m :: rest =>
    match Move.from_str m state with
    | .error e => .error (.valueError e)
    | .ok move => replay_moves (state.make_move move) rest

/-- Embedding of `Engine.parse_position(moves)` from `rt/engine.py`:
`moves[0]` raises `IndexError` on an empty list, must equal `"startpos"`,
and the remaining tokens are replayed from the start position. -/
def parse_position (moves : List String) : Except PyErr GameState :=
  match moves with
  | [] => .error (.indexError "list index out of range")
  | first :: rest =>
    match expect "startpos" first with
    | some err => .error err
    | none => replay_moves GameState.start_position rest

/-- The three lines written by `Engine.send_id`. -/
def send_id_output : List String :=
  ["id name TESTENGINE 1.0", "id author <author>", "reversi_v1_ok"]

/-- Embedding of `Engine.parse(msg)` from `rt/engine.py`.  The result is
the engine fields after the call (mutations before an exception persist),
the lines written, and the exception raised, if any.  The `newgame`
escape hatch resets the engine before the state machine dispatch. -/
def EngineM.parse (search_fn : AgentM → Int → Int → Int → Int → String)
    (e : EngineM) (msg : String) : EngineM × List String × Option PyErr :=
  match tokens msg with
  | [] => (e, [], some (.valueError "not enough values to unpack"))
  | command :: args =>
    let e := if command = "newgame" ∧ e.state ≠ .Uninitialized then
        { e with state := .AwaitingNewGame, agent := none, game_state := none }
      else e
    match e.state with
    | .Uninitialized =>
      match expect "reversi_v1" command with
      | some err => (e, [], some err)
      | none => ({ e with state := .AwaitingNewGame }, send_id_output, none)
    | .AwaitingNewGame =>
      match expect "newgame" command with
      | some err => (e, [], some err)
      | none =>
        match setup_agent args with
        | .error err => (e, [], some err)
        | .ok a =>
          ({ e with agent := some a, state := .NewGameCompleted }, [], none)
    | .NewGameCompleted =>
      match expect "isready" command with
      | some err => (e, [], some err)
      | none => ({ e with state := .AwaitingPosition }, ["readyok"], none)
    | .AwaitingPosition =>
      match expect "position" command with
      | some err => (e, [], some err)
      | none =>
        match parse_position args with
        | .error err => (e, [], some err)
        | .ok gs =>
          match e.agent with
          | none => (e, [], some (.attributeError "set_state"))
          | some a =>
            let a2 : AgentM := { a with state := some gs }
            ({ e with agent := some a2, state := .PositionParsed }, [], none)
    | .PositionParsed =>
      match expect "isready" command with
      | some err => (e, [], some err)
      | none => ({ e with state := .AwaitingGo }, ["readyok"], none)
    | .AwaitingGo =>
      match expect "go" command with
      | some err => (e, [], some err)
      | none =>
        match send_best_move search_fn e.agent args with
        | .error err => (e, [], some err)
        | .ok mv =>
          ({ e with state := .AwaitingPosition }, ["bestmove " ++ mv], none)

/-- What one iteration of the read loop `Engine.run` does with a line. -/
structure LineOutcome where
  engine : EngineM
  output : List String
  rejected : Bool
  crashed : Bool
deriving DecidableEq

/-- One iteration of the `for msg in self.instream` loop of `Engine.run`
from `rt/engine.py`: strip the line, parse it, catch `EngineError` (the
line is rejected, logged, and the loop continues); any other exception
propagates out of `run` and tears the session down (`crashed`). -/
def runLine (search_fn : AgentM → Int → Int → Int → Int → String)
    (e : EngineM) (line : String) : LineOutcome :=
  match e.parse search_fn (pyStrip line) with
  | (e2, out, none) => ⟨e2, out, false, false⟩
  | (e2, out, some (.engineError _)) => ⟨e2, out, true, false⟩
  | (e2, out, some _) => ⟨e2, out, false, true⟩

/-- The reset the `newgame` escape hatch applies to the engine. -/
def EngineM.reset (e : EngineM) : EngineM :=
  { e with state := .AwaitingNewGame, agent := none, game_state := none }

/-! ## Theorems

### Bit-level toolkit -/

theorem popcountAux_zero (fuel : Nat) : popcountAux fuel 0 = 0 := by
  cases fuel <;> simp [popcountAux]

theorem popcountAux_congr :
    ∀ f1 f2 n : Nat, n ≤ f1 → n ≤ f2 → popcountAux f1 n = popcountAux f2 n := by
  intro f1
  induction f1 with
  | zero =>
    intro f2 n h1 _
    have hn : n = 0 := by omega
    subst hn
    rw [popcountAux_zero, popcountAux_zero]
  | succ f ih =>
    intro f2 n h1 h2
    by_cases hn : n = 0
    · subst hn
      rw [popcountAux_zero, popcountAux_zero]
    · have hlt : n / 2 < n := Nat.div_lt_self (by omega) (by omega)
      cases f2 with
      | zero => omega
      | succ f2x =>
        show popcountAux (f + 1) n = popcountAux (f2x + 1) n
        simp only [popcountAux, hn, if_false]
        rw [ih f2x (n / 2) (by omega) (by omega)]

theorem popcount_div2 (n : Nat) : popcount n = popcount (n / 2) + n % 2 := by
  by_cases hn : n = 0
  · subst hn
    simp [popcount, popcountAux_zero]
  · unfold popcount
    rw [popcountAux_congr n (n + 1) n (by omega) (by omega)]
    show (if n = 0 then 0 else popcountAux n (n / 2) + n % 2) = _
    rw [if_neg hn,
      popcountAux_congr n (n / 2) (n / 2)
        (by have := Nat.div_lt_self (by omega : 0 < n) (by omega : 1 < 2); omega)
        (le_refl _)]

theorem popcount_two_pow (k : Nat) : popcount (2 ^ k) = 1 := by
  induction k with
  | zero => rfl
  | succ k ih =>
    rw [popcount_div2, Nat.pow_succ, Nat.mul_div_cancel _ (by omega : 0 < 2),
      Nat.mul_mod_left, ih]

theorem popcount_lor_of_disjoint (a : Nat) :
    ∀ b : Nat, a &&& b = 0 → popcount (a ||| b) = popcount a + popcount b := by
  induction a using Nat.strong_induction_on with
  | _ a ih =>
    intro b hab
    by_cases ha : a = 0
    · subst ha
      simp [popcount, popcountAux_zero]
    · have hda : a / 2 < a := Nat.div_lt_self (by omega) (by omega)
      have hd2 : a / 2 &&& b / 2 = 0 := by
        rw [← Nat.and_div_two, hab]
      have hmod : (a ||| b) % 2 = a % 2 + b % 2 := by
        have hand : ¬(a % 2 = 1 ∧ b % 2 = 1) := by
          intro hc
          have : (a &&& b) % 2 = 1 := Nat.and_mod_two_eq_one.mpr hc
          rw [hab] at this
          omega
        rcases Nat.mod_two_eq_zero_or_one a with h2a | h2a <;>
          rcases Nat.mod_two_eq_zero_or_one b with h2b | h2b
        · have : ¬((a ||| b) % 2 = 1) := by
            rw [Nat.or_mod_two_eq_one]
            omega
          omega
        · have : (a ||| b) % 2 = 1 := Nat.or_mod_two_eq_one.mpr (by omega)
          omega
        · have : (a ||| b) % 2 = 1 := Nat.or_mod_two_eq_one.mpr (by omega)
          omega
        · exact absurd ⟨h2a, h2b⟩ hand
      rw [popcount_div2 (a ||| b), Nat.or_div_two, ih (a / 2) hda (b / 2) hd2,
        hmod, popcount_div2 a, popcount_div2 b]
      omega

theorem xor_eq_lor_of_disjoint (a b : Nat) (h : a &&& b = 0) :
    a ^^^ b = a ||| b := by
  apply Nat.eq_of_testBit_eq
  intro i
  have hb := congrArg (fun x => x.testBit i) h
  simp only [Nat.testBit_and, Nat.zero_testBit] at hb
  simp only [Nat.testBit_xor, Nat.testBit_or]
  cases h1 : a.testBit i <;> cases h2 : b.testBit i <;> simp_all

theorem popcount_split_subset (a b : Nat) (h : b &&& a = b) :
    popcount a = popcount (a ^^^ b) + popcount b := by
  have hd : (a ^^^ b) &&& b = 0 := by
    apply Nat.eq_of_testBit_eq
    intro i
    have hs := congrArg (fun x => x.testBit i) h
    simp only [Nat.testBit_and, Nat.zero_testBit] at hs ⊢
    simp only [Nat.testBit_xor]
    cases h1 : a.testBit i <;> cases h2 : b.testBit i <;> simp_all
  have hu : (a ^^^ b) ||| b = a := by
    apply Nat.eq_of_testBit_eq
    intro i
    have hs := congrArg (fun x => x.testBit i) h
    simp only [Nat.testBit_and] at hs
    simp only [Nat.testBit_or, Nat.testBit_xor]
    cases h1 : a.testBit i <;> cases h2 : b.testBit i <;> simp_all
  have hl := popcount_lor_of_disjoint (a ^^^ b) b hd
  rw [hu] at hl
  exact hl

theorem popcount_le_of_lt_two_pow :
    ∀ k n : Nat, n < 2 ^ k → popcount n ≤ k := by
  intro k
  induction k with
  | zero =>
    intro n hn
    have : n = 0 := by omega
    subst this
    simp [popcount, popcountAux_zero]
  | succ k ih =>
    intro n hn
    rw [popcount_div2]
    have hh : n / 2 < 2 ^ k := by
      apply Nat.div_lt_of_lt_mul
      rw [Nat.mul_comm]
      calc n < 2 ^ (k + 1) := hn
        _ = 2 ^ k * 2 := by rw [Nat.pow_succ]
    have := ih (n / 2) hh
    omega

theorem two_pow_land_ne_zero_iff (k b : Nat) :
    (2 ^ k &&& b ≠ 0) ↔ b.testBit k = true := by
  constructor
  · intro h
    obtain ⟨i, hi⟩ := Nat.ne_zero_implies_bit_true h
    rw [Nat.testBit_and, Nat.testBit_two_pow] at hi
    rcases Bool.and_eq_true_iff.mp hi with ⟨h1, h2⟩
    have : k = i := by simpa using h1
    subst this
    exact h2
  · intro h hz
    have := congrArg (fun x => x.testBit k) hz
    simp only [Nat.testBit_and, Nat.testBit_two_pow, Nat.zero_testBit] at this
    simp [h] at this

theorem is_occupied_eq_testBit (r c : Int) (b : Nat) :
    is_occupied r c b = b.testBit (rc2ind r c).toNat := by
  unfold is_occupied rc2board ind2board
  rw [Nat.one_shiftLeft]
  rcases h : b.testBit (rc2ind r c).toNat with _ | _
  · have : 2 ^ (rc2ind r c).toNat &&& b = 0 := by
      by_contra hne
      have := (two_pow_land_ne_zero_iff _ _).mp hne
      simp [h] at this
    simp [this]
  · have : 2 ^ (rc2ind r c).toNat &&& b ≠ 0 :=
      (two_pow_land_ne_zero_iff _ _).mpr h
    simpa using this

theorem rc2board_eq_two_pow (r c : Int) :
    rc2board r c = 2 ^ (rc2ind r c).toNat := by
  simp [rc2board, ind2board, Nat.one_shiftLeft]

theorem testBit_rc2board (r c : Int) (k : Nat) :
    (rc2board r c).testBit k = decide ((rc2ind r c).toNat = k) := by
  rw [rc2board_eq_two_pow, Nat.testBit_two_pow]

theorem is_inbounds_iff {r c : Int} :
    is_inbounds r c = true ↔ 0 ≤ r ∧ r < 8 ∧ 0 ≤ c ∧ c < 8 := by
  simp [is_inbounds, BOARD_SIZE]
  omega

theorem rc2ind_bounds {r c : Int} (h : is_inbounds r c = true) :
    0 ≤ rc2ind r c ∧ rc2ind r c < 64 := by
  rw [is_inbounds_iff] at h
  unfold rc2ind BOARD_SIZE
  omega

theorem rc2ind_toNat_inj {r c r2 c2 : Int} (h : is_inbounds r c = true)
    (h2 : is_inbounds r2 c2 = true)
    (he : (rc2ind r c).toNat = (rc2ind r2 c2).toNat) : r = r2 ∧ c = c2 := by
  rw [is_inbounds_iff] at h h2
  unfold rc2ind BOARD_SIZE at he
  omega

theorem rc2board_lt_two_pow {r c : Int} (h : is_inbounds r c = true) :
    rc2board r c < 2 ^ 64 := by
  rw [rc2board_eq_two_pow]
  have := rc2ind_bounds h
  exact Nat.pow_lt_pow_right (by omega) (by omega)

theorem mem_iter_board {r c : Int} :
    (r, c) ∈ iter_board ↔ 0 ≤ r ∧ r < 8 ∧ 0 ≤ c ∧ c < 8 := by
  unfold iter_board
  rw [List.mem_flatMap]
  constructor
  · rintro ⟨row, hrow, hmem⟩
    rw [List.mem_map] at hmem
    obtain ⟨col, hcol, heq⟩ := hmem
    rw [List.mem_range] at hrow hcol
    rw [Prod.mk.injEq] at heq
    obtain ⟨h1, h2⟩ := heq
    rw [Int.ofNat_eq_coe] at h1 h2
    omega
  · rintro ⟨h1, h2, h3, h4⟩
    refine ⟨r.toNat, List.mem_range.mpr (by omega), List.mem_map.mpr
      ⟨c.toNat, List.mem_range.mpr (by omega), ?_⟩⟩
    rw [Prod.mk.injEq, Int.ofNat_eq_coe, Int.ofNat_eq_coe]
    omega

theorem occupied_land {r c : Int} {b : Nat} (h : is_occupied r c b = true) :
    rc2board r c &&& b = rc2board r c := by
  rw [is_occupied_eq_testBit] at h
  apply Nat.eq_of_testBit_eq
  intro j
  rw [Nat.testBit_and, testBit_rc2board]
  by_cases hj : (rc2ind r c).toNat = j
  · subst hj
    simp [h]
  · simp [hj]

theorem land_le_right_of_eq {a b : Nat} (h : a &&& b = a) : a ≤ b := by
  rw [← h]
  exact Nat.and_le_right

theorem testBit_of_land_eq {a b : Nat} (h : a &&& b = a) {i : Nat}
    (hi : a.testBit i = true) : b.testBit i = true := by
  have := congrArg (fun x => x.testBit i) h
  simp only [Nat.testBit_and] at this
  cases hb : b.testBit i
  · rw [hb, hi] at this
    simp at this
  · rfl

theorem ffadAux_land_opp (row col dr dc : Int) (my opp : Nat) :
    ∀ (fuel : Nat) (i : Int) (pattern : Nat), pattern &&& opp = pattern →
      ffadAux row col dr dc my opp fuel i pattern &&& opp =
        ffadAux row col dr dc my opp fuel i pattern := by
  intro fuel
  induction fuel with
  | zero => intro i pattern _; simp [ffadAux]
  | succ f ih =>
    intro i pattern hp
    show ffadAux row col dr dc my opp (f + 1) i pattern &&& opp = _
    rw [ffadAux]
    by_cases h1 : is_inbounds (row + dr * i) (col + dc * i) = false
    · simp [h1]
    · rw [if_neg h1]
      by_cases h2 : is_occupied (row + dr * i) (col + dc * i) my = true
      · simp [h2, hp]
      · rw [if_neg h2]
        by_cases h3 : is_occupied (row + dr * i) (col + dc * i) opp = true
        · rw [if_pos h3]
          apply ih
          rw [Nat.and_distrib_right, hp, occupied_land h3]
        · simp [h3]

theorem find_flips_along_direction_land_opp (row col dr dc : Int)
    (my opp : Nat) :
    find_flips_along_direction row col dr dc my opp &&& opp =
      find_flips_along_direction row col dr dc my opp := by
  unfold find_flips_along_direction
  exact ffadAux_land_opp row col dr dc my opp 7 1 0 (by simp)

theorem find_flips_land_opp (row col : Int) (my opp : Nat) :
    find_flips row col my opp &&& opp = find_flips row col my opp := by
  unfold find_flips
  repeat rw [Nat.and_distrib_right]
  repeat rw [find_flips_along_direction_land_opp]

theorem mem_find_moves {p : Player} {my opp : Nat} {m : Move} :
    m ∈ find_moves p my opp ↔
      (m.row, m.col) ∈ iter_board ∧
        is_occupied m.row m.col my = false ∧
        is_occupied m.row m.col opp = false ∧
        m.flip_board = find_flips m.row m.col my opp ∧
        m.flip_board ≠ 0 ∧ m.player = p := by
  unfold find_moves
  rw [List.mem_filterMap]
  constructor
  · rintro ⟨rc, hrc, hf⟩
    by_cases hocc : is_occupied rc.1 rc.2 my = false ∧
        is_occupied rc.1 rc.2 opp = false
    · rw [if_pos hocc] at hf
      by_cases hfl : find_flips rc.1 rc.2 my opp ≠ 0
      · rw [if_pos hfl] at hf
        cases hf
        exact ⟨by cases rc; exact hrc, hocc.1, hocc.2, rfl, hfl, rfl⟩
      · rw [if_neg hfl] at hf
        cases hf
    · rw [if_neg hocc] at hf
      cases hf
  · rintro ⟨h1, h2, h3, h4, h5, h6⟩
    refine ⟨(m.row, m.col), h1, ?_⟩
    rw [if_pos ⟨h2, h3⟩, if_pos (h4 ▸ h5)]
    cases m
    simp only at h4 h6
    rw [← h4, h6]

theorem next_player_eq_ite (s : GameState) :
    s.next_player =
      if s.possible_moves s.last_played.opponent ≠ [] then
        some s.last_played.opponent
      else if s.possible_moves s.last_played ≠ [] then some s.last_played
      else none := by
  cases h : s.last_played <;>
    simp [GameState.next_player, Player.opponent, h, List.length_pos]

/-- Claim C7: for every game state, `next_player()` returns the opponent of
the player that made the last move if that opponent has at least one legal
move; otherwise the player that made the last move if that player has at
least one legal move (forced pass); otherwise `None` (the game has
ended). -/
theorem next_player_spec (s : GameState) :
    s.next_player =
      if s.possible_moves s.last_played.opponent ≠ [] then
        some s.last_played.opponent
      else if s.possible_moves s.last_played ≠ [] then some s.last_played
      else none :=
  next_player_eq_ite s

theorem land_eq_zero_iff {a b : Nat} :
    a &&& b = 0 ↔ ∀ i, a.testBit i = false ∨ b.testBit i = false := by
  constructor
  · intro h i
    have hb := congrArg (fun x => x.testBit i) h
    simp only [Nat.testBit_and, Nat.zero_testBit] at hb
    cases ha : a.testBit i
    · exact Or.inl rfl
    · rw [ha] at hb
      simp at hb
      exact Or.inr hb
  · intro h
    apply Nat.eq_of_testBit_eq
    intro i
    simp only [Nat.testBit_and, Nat.zero_testBit]
    rcases h i with h | h <;> simp [h]

theorem not_occupied_land {r c : Int} {b : Nat}
    (h : is_occupied r c b = false) : rc2board r c &&& b = 0 := by
  unfold is_occupied at h
  simpa using h

theorem testBit_lt_64 {x : Nat} (hx : x < 2 ^ 64) :
    ∀ i, x.testBit i = true → i < 64 := by
  intro i hi
  by_contra hge
  have hlt : x < 2 ^ i :=
    lt_of_lt_of_le hx (Nat.pow_le_pow_right (by omega) (by omega))
  rw [Nat.testBit_lt_two_pow hlt] at hi
  cases hi

theorem possible_moves_eq_find_moves (s : GameState) (p : Player) :
    s.possible_moves p =
      find_moves p (player_board s p) (player_board s p.opponent) := by
  cases p <;> rfl

theorem move_mem_facts {s : GameState} {p : Player} {m : Move}
    (hm : m ∈ s.possible_moves p) :
    is_inbounds m.row m.col = true ∧
    m.player = p ∧
    rc2board m.row m.col &&& player_board s p = 0 ∧
    rc2board m.row m.col &&& player_board s p.opponent = 0 ∧
    m.flip_board &&& player_board s p.opponent = m.flip_board ∧
    m.flip_board =
      find_flips m.row m.col (player_board s p) (player_board s p.opponent) ∧
    m.flip_board ≠ 0 := by
  rw [possible_moves_eq_find_moves, mem_find_moves] at hm
  obtain ⟨h1, h2, h3, h4, h5, h6⟩ := hm
  have hin : is_inbounds m.row m.col = true := by
    rw [is_inbounds_iff]
    exact mem_iter_board.mp h1
  exact ⟨hin, h6, not_occupied_land h2, not_occupied_land h3,
    h4 ▸ find_flips_land_opp m.row m.col _ _, h4, h5⟩

theorem make_move_boards (s : GameState) (m : Move) :
    player_board (s.make_move m) m.player =
      (player_board s m.player ||| rc2board m.row m.col) ^^^ m.flip_board ∧
    player_board (s.make_move m) m.player.opponent =
      player_board s m.player.opponent ^^^ m.flip_board ∧
    (s.make_move m).last_played = m.player := by
  cases hp : m.player <;>
    simp [GameState.make_move, GameState.place_token, player_board,
      Player.opponent, hp]

theorem land_zero_bit {a b : Nat} (h : a &&& b = 0) {i : Nat}
    (ha : a.testBit i = true) : b.testBit i = false := by
  rcases land_eq_zero_iff.mp h i with h2 | h2
  · rw [ha] at h2
    cases h2
  · exact h2

theorem move_update_facts (my opp pos flip : Nat)
    (hdisj : my &&& opp = 0)
    (hposmy : pos &&& my = 0) (hposopp : pos &&& opp = 0)
    (hflip : flip &&& opp = flip) :
    (my ||| pos) ^^^ flip = my ||| pos ||| flip ∧
    ((my ||| pos) ^^^ flip) &&& (opp ^^^ flip) = 0 ∧
    popcount ((my ||| pos) ^^^ flip) + popcount (opp ^^^ flip) =
      popcount my + popcount pos + popcount opp := by
  have hflip_of : ∀ i : Nat, flip.testBit i = true → opp.testBit i = true :=
    fun i hi => testBit_of_land_eq hflip hi
  have hmpf : (my ||| pos) &&& flip = 0 := by
    rw [land_eq_zero_iff]
    intro i
    cases hf : flip.testBit i
    · exact Or.inr rfl
    · left
      have ho := hflip_of i hf
      have h1 : my.testBit i = false := by
        cases hmy : my.testBit i
        · rfl
        · rw [land_zero_bit hdisj hmy] at ho
          cases ho
      have h2 : pos.testBit i = false := by
        cases hpos : pos.testBit i
        · rfl
        · rw [land_zero_bit hposopp hpos] at ho
          cases ho
      simp [Nat.testBit_or, h1, h2]
  have heq : (my ||| pos) ^^^ flip = my ||| pos ||| flip :=
    xor_eq_lor_of_disjoint _ _ hmpf
  have hdisj2 : ((my ||| pos) ^^^ flip) &&& (opp ^^^ flip) = 0 := by
    rw [heq, land_eq_zero_iff]
    intro i
    cases ho2 : (opp ^^^ flip).testBit i
    · exact Or.inr rfl
    · left
      rw [Nat.testBit_xor] at ho2
      have hopp : opp.testBit i = true ∧ flip.testBit i = false := by
        cases hopp : opp.testBit i <;> cases hf : flip.testBit i
        · rw [hopp, hf] at ho2
          cases ho2
        · have := hflip_of i hf
          rw [hopp] at this
          cases this
        · exact ⟨rfl, rfl⟩
        · rw [hopp, hf] at ho2
          cases ho2
      have h1 : my.testBit i = false := by
        cases hmy : my.testBit i
        · rfl
        · rw [land_zero_bit hdisj hmy] at hopp
          rcases hopp with ⟨h, _⟩
          cases h
      have h2 : pos.testBit i = false := by
        cases hpos : pos.testBit i
        · rfl
        · rw [land_zero_bit hposopp hpos] at hopp
          rcases hopp with ⟨h, _⟩
          cases h
      simp [Nat.testBit_or, h1, h2, hopp.2]
  refine ⟨heq, hdisj2, ?_⟩
  have hmypos : my &&& pos = 0 := by
    rw [land_eq_zero_iff]
    intro i
    rcases land_eq_zero_iff.mp hposmy i with h | h
    · exact Or.inr h
    · exact Or.inl h
  have hc1 : popcount (my ||| pos) = popcount my + popcount pos :=
    popcount_lor_of_disjoint my pos hmypos
  have hc2 : popcount (my ||| pos ||| flip) =
      popcount (my ||| pos) + popcount flip :=
    popcount_lor_of_disjoint _ _ hmpf
  have hc3 : popcount opp = popcount (opp ^^^ flip) + popcount flip :=
    popcount_split_subset opp flip hflip
  rw [heq, hc2, hc1]
  omega

theorem make_move_invariant_step {s : GameState} {p : Player} {m : Move}
    (hm : m ∈ s.possible_moves p)
    (hdisj : s.black_board &&& s.white_board = 0) :
    (s.make_move m).black_board &&& (s.make_move m).white_board = 0 ∧
    popcount (s.make_move m).black_board +
        popcount (s.make_move m).white_board =
      popcount s.black_board + popcount s.white_board + 1 := by
  obtain ⟨hin, hpl, hposmy, hposopp, hflip, hflipeq, hflipne⟩ :=
    move_mem_facts hm
  have hb := make_move_boards s m
  rw [hpl] at hb
  have hpd : player_board s p &&& player_board s p.opponent = 0 := by
    cases p
    · exact hdisj
    · show s.white_board &&& s.black_board = 0
      rw [Nat.and_comm]
      exact hdisj
  have hupd := move_update_facts (player_board s p)
    (player_board s p.opponent) (rc2board m.row m.col) m.flip_board
    hpd hposmy hposopp hflip
  have hpos1 : popcount (rc2board m.row m.col) = 1 := by
    rw [rc2board_eq_two_pow]
    exact popcount_two_pow _
  obtain ⟨_, hd2, hcnt⟩ := hupd
  rw [← hb.1, ← hb.2.1] at hd2 hcnt
  cases p
  · refine ⟨hd2, ?_⟩
    have : popcount (player_board s .Black) +
        popcount (rc2board m.row m.col) +
        popcount (player_board s Player.Black.opponent) =
        popcount s.black_board + popcount s.white_board + 1 := by
      show popcount s.black_board + _ + popcount s.white_board = _
      omega
    rw [← this]
    exact hcnt
  · constructor
    · show (s.make_move m).black_board &&& (s.make_move m).white_board = 0
      have : player_board (s.make_move m) Player.White.opponent =
          (s.make_move m).black_board := rfl
      rw [this] at hd2
      have h2 : player_board (s.make_move m) Player.White =
          (s.make_move m).white_board := rfl
      rw [h2] at hd2
      rw [Nat.and_comm]
      exact hd2
    · have h1 : player_board (s.make_move m) Player.White.opponent =
          (s.make_move m).black_board := rfl
      have h2 : player_board (s.make_move m) Player.White =
          (s.make_move m).white_board := rfl
      rw [h1, h2] at hcnt
      have h3 : player_board s Player.White.opponent = s.black_board := rfl
      have h4 : player_board s Player.White = s.white_board := rfl
      rw [h3, h4, hpos1] at hcnt
      omega

theorem make_move_lt_step {s : GameState} {p : Player} {m : Move}
    (hm : m ∈ s.possible_moves p)
    (hb : s.black_board < 2 ^ 64) (hw : s.white_board < 2 ^ 64) :
    (s.make_move m).black_board < 2 ^ 64 ∧
      (s.make_move m).white_board < 2 ^ 64 := by
  obtain ⟨hin, hpl, hposmy, hposopp, hflip, hflipeq, hflipne⟩ :=
    move_mem_facts hm
  have hpos : rc2board m.row m.col < 2 ^ 64 := rc2board_lt_two_pow hin
  have hflt : m.flip_board < 2 ^ 64 := by
    have h1 : m.flip_board ≤ player_board s p.opponent :=
      land_le_right_of_eq hflip
    have h2 : player_board s p.opponent < 2 ^ 64 := by
      cases p
      · exact hw
      · exact hb
    omega
  have hmy : player_board s p < 2 ^ 64 := by
    cases p
    · exact hb
    · exact hw
  have hmov := make_move_boards s m
  rw [hpl] at hmov
  have hx : player_board (s.make_move m) p < 2 ^ 64 := by
    rw [hmov.1]
    exact Nat.xor_lt_two_pow (Nat.or_lt_two_pow hmy hpos) hflt
  have hy : player_board (s.make_move m) p.opponent < 2 ^ 64 := by
    rw [hmov.2.1]
    have h2 : player_board s p.opponent < 2 ^ 64 := by
      cases p
      · exact hw
      · exact hb
    exact Nat.xor_lt_two_pow h2 hflt
  cases p
  · exact ⟨hx, hy⟩
  · exact ⟨hy, hx⟩

theorem reachable_aux {s : GameState} {n : Nat} (h : Reachable s n) :
    s.black_board &&& s.white_board = 0 ∧ s.black_board < 2 ^ 64 ∧
      s.white_board < 2 ^ 64 ∧
      popcount s.black_board + popcount s.white_board = 4 + n := by
  induction h with
  | start => exact ⟨by decide, by decide, by decide, by decide⟩
  | step hre hnp hmem ih =>
    obtain ⟨d, lb, lw, cnt⟩ := ih
    have st := make_move_invariant_step hmem d
    have bd := make_move_lt_step hmem lb lw
    exact ⟨st.1, bd.1, bd.2, by omega⟩

/-- Claim C6: for every state reachable from the start position by
applying legal moves (moves produced by `possible_moves` for the next
player), the black and white bit-sets are disjoint, every set bit lies
within the 8×8 grid (bit index below 64), and the total stone count
equals 4 plus the number of moves applied. -/
theorem reachable_state_invariants {s : GameState} {n : Nat}
    (h : Reachable s n) :
    s.black_board &&& s.white_board = 0 ∧
    (∀ i, (s.black_board ||| s.white_board).testBit i = true → i < 64) ∧
    popcount s.black_board + popcount s.white_board = 4 + n := by
  obtain ⟨d, lb, lw, cnt⟩ := reachable_aux h
  exact ⟨d, testBit_lt_64 (Nat.or_lt_two_pow lb lw), cnt⟩

/-- Witness for C6 at the start position itself. -/
theorem reachable_state_invariants_witness :
    GameState.start_position.black_board &&&
        GameState.start_position.white_board = 0 ∧
      popcount GameState.start_position.black_board +
          popcount GameState.start_position.white_board = 4 + 0 := by
  have h := reachable_state_invariants Reachable.start
  exact ⟨h.1, h.2.2⟩

set_option maxRecDepth 4000 in
theorem parse_move_to_string (m : Move) (h1 : 0 ≤ m.row) (h2 : m.row < 8)
    (h3 : 0 ≤ m.col) (h4 : m.col < 8) :
    parse_move_string m.to_string = Except.ok (m.row, m.col, m.player) := by
  obtain ⟨row, col, flip, p⟩ := m
  simp only at h1 h2 h3 h4 ⊢
  interval_cases row <;> interval_cases col <;> cases p <;> rfl

/-- Claim C9: for every state and every legal move for that state's next
player, parsing the move's string form against the same state
(`Move.from_str` of `str(move)`) yields a move equal to the original:
same row, same column, same player, and an identically recomputed flip
mask. -/
theorem move_token_roundtrip {s : GameState} {p : Player} {m : Move}
    (hnp : s.next_player = some p) (hm : m ∈ s.possible_moves p) :
    Move.from_str m.to_string s = Except.ok m := by
  obtain ⟨hin, hpl, _, _, _, hflipeq, _⟩ := move_mem_facts hm
  rw [is_inbounds_iff] at hin
  have hparse := parse_move_to_string m (by omega) (by omega) (by omega)
    (by omega)
  unfold Move.from_str
  rw [hparse, hpl]
  cases p
  · show Except.ok (Move.mk m.row m.col
      (find_flips m.row m.col s.black_board s.white_board) .Black) =
        Except.ok m
    have hf : find_flips m.row m.col s.black_board s.white_board =
        m.flip_board := by
      rw [hflipeq]
      rfl
    rw [hf, ← hpl]
  · show Except.ok (Move.mk m.row m.col
      (find_flips m.row m.col s.white_board s.black_board) .White) =
        Except.ok m
    have hf : find_flips m.row m.col s.white_board s.black_board =
        m.flip_board := by
      rw [hflipeq]
      rfl
    rw [hf, ← hpl]

/-- Witness for C9: the round trip at the start position for Black's move
`d3` (row 2, column 3, flipping the white stone on bit 27). -/
theorem move_token_roundtrip_witness :
    GameState.start_position.next_player = some Player.Black ∧
    (⟨2, 3, 134217728, Player.Black⟩ : Move) ∈
      GameState.start_position.possible_moves Player.Black ∧
    Move.from_str (Move.to_string ⟨2, 3, 134217728, Player.Black⟩)
      GameState.start_position = Except.ok ⟨2, 3, 134217728, Player.Black⟩ := by
  exact ⟨by decide, by decide,
    @move_token_roundtrip GameState.start_position Player.Black
      ⟨2, 3, 134217728, Player.Black⟩ (by decide) (by decide)⟩

/-- Claim C3 (the code contradicts it): the read loop `Engine.run`
catches only `EngineError`, but an unparseable `key=value` argument of
`go` raises `ValueError` (Python `int("x")`), which propagates out of the
loop: the line is not logged as a rejected protocol error and the session
is torn down by this single bad line.  Evaluated at the failing input:
engine awaiting `go`, line `go btime=1000 wtime=1000 binc=0 winc=x`. -/
theorem go_value_error_crashes_session
    (search_fn : AgentM → Int → Int → Int → Int → String) :
    (runLine search_fn
      ⟨.AwaitingGo, none, some ⟨Player.Black, some GameState.start_position⟩⟩
      "go btime=1000 wtime=1000 binc=0 winc=x").crashed = true ∧
    (runLine search_fn
      ⟨.AwaitingGo, none, some ⟨Player.Black, some GameState.start_position⟩⟩
      "go btime=1000 wtime=1000 binc=0 winc=x").rejected = false :=
  ⟨rfl, rfl⟩

/-- Claim C4 (the code contradicts it): position replay does not compare
the token's player with the replay state's next player.  At the start
position the next player is Black, yet replaying the single white token
`d3w` succeeds — the move (with its recomputed, empty flip mask) is
silently applied instead of being reported as an error. -/
theorem replay_applies_wrong_player_token :
    GameState.start_position.next_player = some Player.Black ∧
    parse_position ["startpos", "d3w"] =
      Except.ok (GameState.start_position.make_move ⟨2, 3, 0, Player.White⟩) :=
  ⟨by decide, by decide⟩

theorem expect_eq {s t : String} (h : s = t) : expect s t = none := by
  simp [expect, h]

theorem expect_ne {s t : String} (h : ¬s = t) :
    expect s t = some (.engineError ("expected: " ++ s ++ ", got: " ++ t)) := by
  simp [expect, h]

/-- Claim C5 (amended): for every protocol state and every input line that
`Engine.parse` rejects with an `EngineError`, the engine's protocol state,
agent and stored game state after the line are the same as before —
except for a rejected `newgame` command (e.g. with a missing or invalid
side argument) sent from any initialized state, after which the engine is
left reset: protocol state `AwaitingNewGame`, agent and game state
cleared, because the escape hatch mutates the engine before the arguments
are validated. -/
theorem engine_error_leaves_engine_unchanged
    (search_fn : AgentM → Int → Int → Int → Int → String)
    (e : EngineM) (msg : String)
    (h : ∃ emsg, (e.parse search_fn msg).2.2 = some (.engineError emsg)) :
    (e.parse search_fn msg).1 =
      if (tokens msg).head? = some "newgame" ∧ e.state ≠ EState.Uninitialized
      then e.reset else e := by
  obtain ⟨est, gs, ag⟩ := e
  obtain ⟨emsg, herr⟩ := h
  unfold EngineM.parse at herr ⊢
  cases htok : tokens msg with
  | nil =>
    try rw [htok] at herr
    simp at herr
  | cons command args =>
    try rw [htok] at herr
    try rw [htok]
    rw [List.head?_cons]
    dsimp only at herr ⊢
    by_cases hcmd : command = "newgame" ∧ ¬est = EState.Uninitialized
    · rw [if_pos hcmd] at herr ⊢
      have hng : (some command = some "newgame" ∧
          ¬est = EState.Uninitialized) := ⟨by rw [hcmd.1], hcmd.2⟩
      rw [if_pos hng]
      obtain ⟨hc1, hc2⟩ := hcmd
      subst hc1
      rw [expect_eq rfl] at herr ⊢
      dsimp only at herr ⊢
      rcases hsa : setup_agent args with err | a
      · try rw [hsa] at herr
        try rw [hsa]
        try rfl
      · try rw [hsa] at herr
        try rw [hsa]
        simp at herr
    · rw [if_neg hcmd] at herr ⊢
      have hng : ¬(some command = some "newgame" ∧
          ¬est = EState.Uninitialized) := by
        intro hc
        exact hcmd ⟨by injection hc.1, hc.2⟩
      rw [if_neg hng]
      cases est with
      | Uninitialized =>
        by_cases hv : "reversi_v1" = command
        · rw [expect_eq hv] at herr
          simp at herr
        · rw [expect_ne hv] at herr ⊢
          try rfl
      | AwaitingNewGame =>
        have hnn : ¬("newgame" = command) := by
          intro hc
          exact hcmd ⟨hc.symm, by intro hq; cases hq⟩
        rw [expect_ne hnn] at herr ⊢
        try rfl
      | NewGameCompleted =>
        by_cases hv : "isready" = command
        · rw [expect_eq hv] at herr
          simp at herr
        · rw [expect_ne hv] at herr ⊢
          try rfl
      | AwaitingPosition =>
        by_cases hv : "position" = command
        · rw [expect_eq hv] at herr ⊢
          dsimp only at herr ⊢
          rcases hpp : parse_position args with err | gs2
          · try rw [hpp] at herr
            try rw [hpp]
            try rfl
          · try rw [hpp] at herr
            try rw [hpp]
            cases ag with
            | none => try rfl
            | some a => simp at herr
        · rw [expect_ne hv] at herr ⊢
          try rfl
      | PositionParsed =>
        by_cases hv : "isready" = command
        · rw [expect_eq hv] at herr
          simp at herr
        · rw [expect_ne hv] at herr ⊢
          try rfl
      | AwaitingGo =>
        by_cases hv : "go" = command
        · rw [expect_eq hv] at herr ⊢
          dsimp only at herr ⊢
          rcases hsb : send_best_move search_fn ag args with err | mv
          · try rw [hsb] at herr
            try rw [hsb]
            try rfl
          · try rw [hsb] at herr
            try rw [hsb]
            simp at herr
        · rw [expect_ne hv] at herr ⊢
          try rfl

/-- Witness for the amended C5: a `go` sent to an uninitialized engine is
rejected with an `EngineError` and the engine is unchanged. -/
theorem engine_error_leaves_engine_unchanged_witness :
    (∃ emsg, (EngineM.parse (fun _ _ _ _ _ => "")
        ⟨.Uninitialized, none, none⟩ "go").2.2 =
        some (PyErr.engineError emsg)) ∧
    (EngineM.parse (fun _ _ _ _ _ => "")
        ⟨.Uninitialized, none, none⟩ "go").1 =
      ⟨.Uninitialized, none, none⟩ := by
  constructor
  · exact ⟨"expected: reversi_v1, got: go", by decide⟩
  · have h := engine_error_leaves_engine_unchanged (fun _ _ _ _ _ => "")
      ⟨.Uninitialized, none, none⟩ "go"
      ⟨"expected: reversi_v1, got: go", by decide⟩
    rw [h, if_neg (by decide)]

/-- Counterexample to claim C5 as stated: a `newgame` command with bad
arguments sent from `AwaitingGo` is rejected with an `EngineError`, yet
the engine does not keep its state: the escape hatch has already reset
the protocol state to `AwaitingNewGame` and cleared the agent. -/
theorem newgame_bad_args_mutates_engine :
    EngineM.parse (fun _ _ _ _ _ => "")
      ⟨.AwaitingGo, none, some ⟨Player.Black, some GameState.start_position⟩⟩
      "newgame x y" =
      (⟨.AwaitingNewGame, none, none⟩, [],
        some (PyErr.engineError "invalid newgame args")) ∧
    (⟨.AwaitingNewGame, none, none⟩ : EngineM) ≠
      ⟨.AwaitingGo, none, some ⟨Player.Black, some GameState.start_position⟩⟩ :=
  ⟨by decide, by decide⟩

/-- The recurrence of `dfs_alpha_beta` exactly as written in
`rt/agent.py`: depth cutoff first (`remaining = true`), then the game-over
leaf (`remaining = false`), else the ordered maximizing/minimizing loop
with the recursion at `depth + 1`. -/
theorem dfs_alpha_beta_eq (state : GameState) (alpha beta : Int)
    (depth : Nat) (player : Player) (max_depth : Nat) (pbv : List Move) :
    dfs_alpha_beta state alpha beta depth player max_depth pbv =
      if depth ≥ max_depth then ⟨[], score_func state player, true⟩
      else
        match state.next_player with
        | none => ⟨[], score_func state player, false⟩
        | some np =>
          let moves := order_moves depth pbv (state.possible_moves np)
          if np = player then
            max_loop
              (fun s a => dfs_alpha_beta s a beta (depth + 1) player max_depth
                pbv)
              state beta moves alpha (-INF_SCORE) [] false
          else
            min_loop
              (fun s b => dfs_alpha_beta s alpha b (depth + 1) player max_depth
                pbv)
              state alpha moves beta INF_SCORE [] false := by
  unfold dfs_alpha_beta
  by_cases h : depth ≥ max_depth
  · have h0 : max_depth - depth = 0 := by omega
    rw [h0, if_pos h]
    rfl
  · have h2 : max_depth - depth = (max_depth - (depth + 1)) + 1 := by omega
    rw [h2, if_neg h]
    rfl

theorem max_loopI_fst (search : GameState → Int → DfsResult × List Bool)
    (state : GameState) (beta : Int) :
    ∀ (ms : List Move) (alpha score : Int) (best : List Move) (rem : Bool)
      (leaves : List Bool),
      (max_loopI search state beta ms alpha score best rem leaves).1 =
        max_loop (fun s a => (search s a).1) state beta ms alpha score best
          rem := by
  intro ms
  induction ms with
  | nil => intro alpha score best rem leaves; rfl
  | cons m ms ih =>
    intro alpha score best rem leaves
    rw [max_loopI, max_loop]
    by_cases hb : (search (state.make_move m) alpha).1.score ≥ beta
    · simp only [hb, if_pos, ge_iff_le]
    · simp only [ge_iff_le] at hb
      simp only [ge_iff_le, hb, if_neg, ite_false]
      exact ih _ _ _ _ _

theorem min_loopI_fst (search : GameState → Int → DfsResult × List Bool)
    (state : GameState) (alpha : Int) :
    ∀ (ms : List Move) (beta score : Int) (best : List Move) (rem : Bool)
      (leaves : List Bool),
      (min_loopI search state alpha ms beta score best rem leaves).1 =
        min_loop (fun s b => (search s b).1) state alpha ms beta score best
          rem := by
  intro ms
  induction ms with
  | nil => intro beta score best rem leaves; rfl
  | cons m ms ih =>
    intro beta score best rem leaves
    rw [min_loopI, min_loop]
    by_cases hb : (search (state.make_move m) beta).1.score ≤ alpha
    · simp only [hb, if_pos]
    · simp only [hb, if_neg, ite_false]
      exact ih _ _ _ _ _

theorem dfsIGo_fst (player : Player) (max_depth : Nat) (pbv : List Move) :
    ∀ (fuel : Nat) (state : GameState) (alpha beta : Int) (depth : Nat),
      (dfsIGo player max_depth pbv fuel state alpha beta depth).1 =
        dfsGo player max_depth pbv fuel state alpha beta depth := by
  intro fuel
  induction fuel with
  | zero => intro state alpha beta depth; rfl
  | succ fuel ih =>
    intro state alpha beta depth
    rw [dfsIGo, dfsGo]
    cases hnp : state.next_player with
    | none => rfl
    | some np =>
      dsimp only
      by_cases hmx : np = player
      · rw [if_pos hmx, if_pos hmx, max_loopI_fst]
        have hfun : (fun s a => (dfsIGo player max_depth pbv fuel s a beta
            (depth + 1)).1) = (fun s a => dfsGo player max_depth pbv fuel s a
            beta (depth + 1)) := by
          funext s a
          exact ih s a beta (depth + 1)
        rw [hfun]
      · rw [if_neg hmx, if_neg hmx, min_loopI_fst]
        have hfun : (fun s b => (dfsIGo player max_depth pbv fuel s alpha b
            (depth + 1)).1) = (fun s b => dfsGo player max_depth pbv fuel s
            alpha b (depth + 1)) := by
          funext s b
          exact ih s alpha b (depth + 1)
        rw [hfun]


theorem max_loopI_remaining (search : GameState → Int → DfsResult × List Bool)
    (state : GameState) (beta : Int)
    (hchild : ∀ s a, (search s a).1.remaining =
      (search s a).2.any (fun b => !b)) :
    ∀ (ms : List Move) (alpha score : Int) (best : List Move) (rem : Bool)
      (leaves : List Bool), rem = leaves.any (fun b => !b) →
      (max_loopI search state beta ms alpha score best rem leaves).1.remaining
        = (max_loopI search state beta ms alpha score best rem
            leaves).2.any (fun b => !b) := by
  intro ms
  induction ms with
  | nil => intro alpha score best rem leaves hinv; exact hinv
  | cons m ms ih =>
    intro alpha score best rem leaves hinv
    rw [max_loopI]
    have hstep : (rem || (search (state.make_move m) alpha).1.remaining) =
        (leaves ++ (search (state.make_move m) alpha).2).any (fun b => !b) := by
      rw [List.any_append, hinv, hchild]
    by_cases hb : (search (state.make_move m) alpha).1.score ≥ beta
    · simp only [hb, if_pos, ge_iff_le]
      exact hstep
    · simp only [ge_iff_le] at hb
      simp only [ge_iff_le, hb, if_neg, ite_false]
      exact ih _ _ _ _ _ hstep

theorem min_loopI_remaining (search : GameState → Int → DfsResult × List Bool)
    (state : GameState) (alpha : Int)
    (hchild : ∀ s b, (search s b).1.remaining =
      (search s b).2.any (fun b => !b)) :
    ∀ (ms : List Move) (beta score : Int) (best : List Move) (rem : Bool)
      (leaves : List Bool), rem = leaves.any (fun b => !b) →
      (min_loopI search state alpha ms beta score best rem leaves).1.remaining
        = (min_loopI search state alpha ms beta score best rem
            leaves).2.any (fun b => !b) := by
  intro ms
  induction ms with
  | nil => intro beta score best rem leaves hinv; exact hinv
  | cons m ms ih =>
    intro beta score best rem leaves hinv
    rw [min_loopI]
    have hstep : (rem || (search (state.make_move m) beta).1.remaining) =
        (leaves ++ (search (state.make_move m) beta).2).any (fun b => !b) := by
      rw [List.any_append, hinv, hchild]
    by_cases hb : (search (state.make_move m) beta).1.score ≤ alpha
    · simp only [hb, if_pos]
      exact hstep
    · simp only [hb, if_neg, ite_false]
      exact ih _ _ _ _ _ hstep

theorem dfsIGo_remaining (player : Player) (max_depth : Nat)
    (pbv : List Move) :
    ∀ (fuel : Nat) (state : GameState) (alpha beta : Int) (depth : Nat),
      (dfsIGo player max_depth pbv fuel state alpha beta depth).1.remaining =
        (dfsIGo player max_depth pbv fuel state alpha beta
          depth).2.any (fun b => !b) := by
  intro fuel
  induction fuel with
  | zero => intro state alpha beta depth; rfl
  | succ fuel ih =>
    intro state alpha beta depth
    rw [dfsIGo]
    cases hnp : state.next_player with
    | none => rfl
    | some np =>
      dsimp only
      by_cases hmx : np = player
      · rw [if_pos hmx]
        exact max_loopI_remaining _ state beta
          (fun s a => ih s a beta (depth + 1)) _ _ _ _ _ _ rfl
      · rw [if_neg hmx]
        exact min_loopI_remaining _ state alpha
          (fun s b => ih s alpha b (depth + 1)) _ _ _ _ _ _ rfl

/-- Claim C2: `dfs_alpha_beta` returns `remaining = false` iff every node
explored in the pass reached a state whose `next_player()` is `none`
within the searched depth.  `dfsI_alpha_beta` is the same search
instrumented with one Boolean per explored leaf — `true` at a game-over
leaf, `false` at a depth-cutoff leaf; its result is proved equal to that
of `dfs_alpha_beta`, `remaining` is proved to be the OR, over the
explored children, of the negated leaf flags (a depth-cutoff leaf
contributes `remaining = true`, a game-over leaf `false`), and hence
`remaining = false` holds iff every explored leaf was a true game-tree
leaf. -/
theorem dfs_remaining_iff_true_leaves (state : GameState) (alpha beta : Int)
    (depth : Nat) (player : Player) (max_depth : Nat) (pbv : List Move) :
    (dfsI_alpha_beta state alpha beta depth player max_depth pbv).1 =
      dfs_alpha_beta state alpha beta depth player max_depth pbv ∧
    (dfs_alpha_beta state alpha beta depth player max_depth pbv).remaining =
      (dfsI_alpha_beta state alpha beta depth player max_depth
        pbv).2.any (fun b => !b) ∧
    ((dfs_alpha_beta state alpha beta depth player max_depth pbv).remaining =
        false ↔
      ∀ b ∈ (dfsI_alpha_beta state alpha beta depth player max_depth pbv).2,
        b = true) := by
  have hproj : (dfsI_alpha_beta state alpha beta depth player max_depth
      pbv).1 = dfs_alpha_beta state alpha beta depth player max_depth pbv := by
    unfold dfsI_alpha_beta dfs_alpha_beta
    rw [dfsIGo_fst]
  have hrem := dfsIGo_remaining player max_depth pbv (max_depth - depth)
    state alpha beta depth
  refine ⟨hproj, ?_, ?_⟩
  · rw [← hproj]
    exact hrem
  · rw [← hproj]
    show (dfsIGo player max_depth pbv (max_depth - depth) state alpha beta
        depth).1.remaining = false ↔ _
    rw [hrem]
    rw [List.any_eq_false]
    constructor
    · intro hall b hbmem
      have := hall b hbmem
      cases b
      · simp at this
      · rfl
    · intro hall b hbmem
      rw [hall b hbmem]
      simp

theorem foldl_max_ge_init (w : Move → Int) :
    ∀ (l : List Move) (init : Int),
      init ≤ l.foldl (fun acc m => max acc (w m)) init := by
  intro l
  induction l with
  | nil => intro init; exact le_refl _
  | cons m ms ih =>
    intro init
    calc init ≤ max init (w m) := le_max_left _ _
      _ ≤ _ := ih _

theorem foldl_max_le (w : Move → Int) {bound : Int} :
    ∀ (l : List Move) (init : Int), init ≤ bound →
      (∀ m ∈ l, w m ≤ bound) →
      l.foldl (fun acc m => max acc (w m)) init ≤ bound := by
  intro l
  induction l with
  | nil => intro init hi _; exact hi
  | cons m ms ih =>
    intro init hi hall
    exact ih _ (max_le hi (hall m (List.mem_cons_self m ms)))
      (fun x hx => hall x (List.mem_cons_of_mem m hx))

theorem foldl_max_ge_mem (w : Move → Int) :
    ∀ (l : List Move) (init : Int) (m : Move), m ∈ l →
      w m ≤ l.foldl (fun acc m => max acc (w m)) init := by
  intro l
  induction l with
  | nil => intro init m hm; cases hm
  | cons x xs ih =>
    intro init m hm
    rcases List.mem_cons.mp hm with h | h
    · subst h
      calc w m ≤ max init (w m) := le_max_right _ _
        _ ≤ _ := foldl_max_ge_init w xs _
    · exact ih _ m h

theorem foldl_max_init_mono (w : Move → Int) :
    ∀ (l : List Move) (a b : Int), a ≤ b →
      l.foldl (fun acc m => max acc (w m)) a ≤
        l.foldl (fun acc m => max acc (w m)) b := by
  intro l
  induction l with
  | nil => intro a b h; exact h
  | cons m ms ih =>
    intro a b h
    exact ih _ _ (max_le_max h (le_refl _))

theorem foldl_max_init_max (w : Move → Int) :
    ∀ (l : List Move) (a b : Int),
      l.foldl (fun acc m => max acc (w m)) (max a b) =
        max a (l.foldl (fun acc m => max acc (w m)) b) := by
  intro l
  induction l with
  | nil => intro a b; rfl
  | cons m ms ih =>
    intro a b
    show List.foldl _ (max (max a b) (w m)) ms = _
    rw [max_assoc, ih]
    rfl

theorem foldl_min_le_init (w : Move → Int) :
    ∀ (l : List Move) (init : Int),
      l.foldl (fun acc m => min acc (w m)) init ≤ init := by
  intro l
  induction l with
  | nil => intro init; exact le_refl _
  | cons m ms ih =>
    intro init
    show List.foldl (fun acc m => min acc (w m)) (min init (w m)) ms ≤ init
    exact le_trans (ih _) (min_le_left _ _)

theorem foldl_min_ge (w : Move → Int) {bound : Int} :
    ∀ (l : List Move) (init : Int), bound ≤ init →
      (∀ m ∈ l, bound ≤ w m) →
      bound ≤ l.foldl (fun acc m => min acc (w m)) init := by
  intro l
  induction l with
  | nil => intro init hi _; exact hi
  | cons m ms ih =>
    intro init hi hall
    exact ih _ (le_min hi (hall m (List.mem_cons_self m ms)))
      (fun x hx => hall x (List.mem_cons_of_mem m hx))

theorem foldl_min_le_mem (w : Move → Int) :
    ∀ (l : List Move) (init : Int) (m : Move), m ∈ l →
      l.foldl (fun acc m => min acc (w m)) init ≤ w m := by
  intro l
  induction l with
  | nil => intro init m hm; cases hm
  | cons x xs ih =>
    intro init m hm
    rcases List.mem_cons.mp hm with h | h
    · subst h
      calc List.foldl _ _ _ ≤ min init (w m) := foldl_min_le_init w xs _
        _ ≤ w m := min_le_right _ _
    · exact ih _ m h

theorem foldl_min_init_mono (w : Move → Int) :
    ∀ (l : List Move) (a b : Int), a ≤ b →
      l.foldl (fun acc m => min acc (w m)) a ≤
        l.foldl (fun acc m => min acc (w m)) b := by
  intro l
  induction l with
  | nil => intro a b h; exact h
  | cons m ms ih =>
    intro a b h
    exact ih _ _ (min_le_min h (le_refl _))

theorem foldl_min_init_min (w : Move → Int) :
    ∀ (l : List Move) (a b : Int),
      l.foldl (fun acc m => min acc (w m)) (min a b) =
        min a (l.foldl (fun acc m => min acc (w m)) b) := by
  intro l
  induction l with
  | nil => intro a b; rfl
  | cons m ms ih =>
    intro a b
    show List.foldl _ (min (min a b) (w m)) ms = _
    rw [min_assoc, ih]
    rfl


theorem foldl_append_cons (g : Int → Move → Int)
    (hg : ∀ i a b, g (g i a) b = g (g i b) a) :
    ∀ (l1 l2 : List Move) (x : Move) (init : Int),
      (l1 ++ x :: l2).foldl g init = (l1 ++ l2).foldl g (g init x) := by
  intro l1
  induction l1 with
  | nil => intro l2 x init; rfl
  | cons y ys ih =>
    intro l2 x init
    show (ys ++ x :: l2).foldl g (g init y) = (ys ++ l2).foldl g (g (g init x) y)
    rw [ih, hg]

theorem foldl_filter_partition (g : Int → Move → Int)
    (hg : ∀ i a b, g (g i a) b = g (g i b) a) (p : Move → Bool) :
    ∀ (l : List Move) (init : Int),
      (l.filter p ++ l.filter (fun x => !p x)).foldl g init =
        l.foldl g init := by
  intro l
  induction l with
  | nil => intro init; rfl
  | cons x xs ih =>
    intro init
    by_cases hp : p x = true
    · have hnp : ¬((!p x) = true) := by simp [hp]
      rw [List.filter_cons, List.filter_cons, if_pos hp, if_neg hnp]
      show (xs.filter p ++ xs.filter fun x => !p x).foldl g (g init x) = _
      rw [ih]
      rfl
    · have hp2 : (!p x) = true := by
        cases hpx : p x
        · rfl
        · exact absurd hpx hp
      rw [List.filter_cons, List.filter_cons, if_neg hp, if_pos hp2]
      rw [foldl_append_cons g hg, ih]
      rfl

theorem foldl_order_moves (g : Int → Move → Int)
    (hg : ∀ i a b, g (g i a) b = g (g i b) a) (depth : Nat)
    (pbv moves : List Move) (init : Int) :
    (order_moves depth pbv moves).foldl g init = moves.foldl g init := by
  unfold order_moves
  split
  · exact foldl_filter_partition g hg _ moves init
  · rfl

theorem mem_order_moves {depth : Nat} {pbv moves : List Move} {m : Move} :
    m ∈ order_moves depth pbv moves ↔ m ∈ moves := by
  unfold order_moves
  by_cases hd : depth < pbv.length
  · rw [dif_pos hd, List.mem_append, List.mem_filter, List.mem_filter]
    constructor
    · rintro (⟨h, _⟩ | ⟨h, _⟩) <;> exact h
    · intro h
      cases he : (m == pbv.get ⟨depth, hd⟩)
      · refine Or.inr ⟨h, ?_⟩
        simp only [bne]
        rw [he]
        rfl
      · exact Or.inl ⟨h, rfl⟩
  · rw [dif_neg hd]

theorem next_player_moves_ne_nil {s : GameState} {np : Player}
    (h : s.next_player = some np) : s.possible_moves np ≠ [] := by
  rw [next_player_eq_ite] at h
  by_cases h1 : s.possible_moves s.last_played.opponent ≠ []
  · rw [if_pos h1] at h
    injection h with h2
    subst h2
    exact h1
  · rw [if_neg h1] at h
    by_cases h2 : s.possible_moves s.last_played ≠ []
    · rw [if_pos h2] at h
      injection h with h3
      subst h3
      exact h2
    · rw [if_neg h2] at h
      cases h

theorem score_func_bound {s : GameState} (hb : s.black_board < 2 ^ 64)
    (hw : s.white_board < 2 ^ 64) (p : Player) :
    -64 ≤ score_func s p ∧ score_func s p ≤ 64 := by
  have h1 : popcount s.black_board ≤ 64 := popcount_le_of_lt_two_pow 64 _ hb
  have h2 : popcount s.white_board ≤ 64 := popcount_le_of_lt_two_pow 64 _ hw
  cases p <;>
    simp only [score_func, GameState.count, Player.opponent] <;>
    constructor <;> omega

theorem exists_mem_of_ne_nil {l : List Move} (h : l ≠ []) : ∃ m, m ∈ l := by
  cases l with
  | nil => exact absurd rfl h
  | cons a as => exact ⟨a, List.mem_cons_self a as⟩

theorem mm_bound (player : Player) :
    ∀ (fuel : Nat) (s : GameState), s.black_board < 2 ^ 64 →
      s.white_board < 2 ^ 64 →
      -64 ≤ mmGo player fuel s ∧ mmGo player fuel s ≤ 64 := by
  intro fuel
  induction fuel with
  | zero => intro s hb hw; exact score_func_bound hb hw player
  | succ fuel ih =>
    intro s hb hw
    rw [mmGo]
    cases hnp : s.next_player with
    | none => exact score_func_bound hb hw player
    | some np =>
      dsimp only
      have hne := next_player_moves_ne_nil hnp
      have hchild : ∀ m ∈ s.possible_moves np,
          -64 ≤ mmGo player fuel (s.make_move m) ∧
            mmGo player fuel (s.make_move m) ≤ 64 := fun m hm =>
        ih _ (make_move_lt_step hm hb hw).1 (make_move_lt_step hm hb hw).2
      obtain ⟨m0, hm0⟩ := exists_mem_of_ne_nil hne
      by_cases hmx : np = player
      · rw [if_pos hmx]
        constructor
        · calc (-64 : Int) ≤ mmGo player fuel (s.make_move m0) :=
              (hchild m0 hm0).1
            _ ≤ _ := foldl_max_ge_mem _ _ _ _ hm0
        · exact foldl_max_le _ _ _ (by unfold INF_SCORE; omega)
            (fun m hm => (hchild m hm).2)
      · rw [if_neg hmx]
        constructor
        · exact foldl_min_ge _ _ _ (by unfold INF_SCORE; omega)
            (fun m hm => (hchild m hm).1)
        · calc List.foldl _ _ _ ≤ mmGo player fuel (s.make_move m0) :=
              foldl_min_le_mem _ _ _ _ hm0
            _ ≤ 64 := (hchild m0 hm0).2



theorem max_loop_spec (f : GameState → Int → DfsResult) (w : Move → Int)
    (state : GameState) (beta : Int) :
    ∀ (ms : List Move) (alpha score : Int) (best : List Move) (rem : Bool),
      -INF_SCORE ≤ score → score ≤ alpha → alpha < beta → score ≤ 64 →
      (∀ m ∈ ms, -64 ≤ w m ∧ w m ≤ 64) →
      (∀ m ∈ ms, ∀ a, -INF_SCORE ≤ a → a < beta →
        (-64 ≤ (f (state.make_move m) a).score ∧
          (f (state.make_move m) a).score ≤ 64) ∧
        (f (state.make_move m) a).score ≤ max a (w m) ∧
        min beta (w m) ≤ (f (state.make_move m) a).score) →
      score ≤ (max_loop f state beta ms alpha score best rem).score ∧
      (max_loop f state beta ms alpha score best rem).score ≤ 64 ∧
      (max_loop f state beta ms alpha score best rem).score ≤
        max alpha (ms.foldl (fun acc m => max acc (w m)) score) ∧
      min beta (ms.foldl (fun acc m => max acc (w m)) score) ≤
        (max_loop f state beta ms alpha score best rem).score := by
  intro ms
  induction ms with
  | nil =>
    intro alpha score best rem h65 hsa hab h64 _ _
    refine ⟨le_refl _, h64, ?_, ?_⟩
    · show score ≤ max alpha score
      omega
    · show min beta score ≤ score
      omega
  | cons m ms ih =>
    intro alpha score best rem h65 hsa hab h64 hw hchild
    have hmem : m ∈ m :: ms := List.mem_cons_self m ms
    obtain ⟨hres_bound, hres_up, hres_lo⟩ :=
      hchild m hmem alpha (by omega) hab
    have hwm := hw m hmem
    have hMunf : (m :: ms).foldl (fun acc m => max acc (w m)) score =
        ms.foldl (fun acc m => max acc (w m)) (max score (w m)) := rfl
    have hwm_le_M : w m ≤ ms.foldl (fun acc m => max acc (w m))
        (max score (w m)) :=
      le_trans (le_max_right _ _) (foldl_max_ge_init w ms _)
    have hs_le_M : score ≤ ms.foldl (fun acc m => max acc (w m))
        (max score (w m)) :=
      le_trans (le_max_left _ _) (foldl_max_ge_init w ms _)
    rw [max_loop]
    by_cases hb : (f (state.make_move m) alpha).score ≥ beta
    · simp only [hb, if_pos, ge_iff_le, ite_true]
      refine ⟨by omega, by omega, ?_, ?_⟩
      · show (if (f (state.make_move m) alpha).score > score then
            (f (state.make_move m) alpha).score else score) ≤ _
        rw [hMunf]
        omega
      · show min beta _ ≤ (if (f (state.make_move m) alpha).score > score then
            (f (state.make_move m) alpha).score else score)
        rw [hMunf]
        omega
    · simp only [ge_iff_le] at hb
      simp only [ge_iff_le, hb, if_neg, ite_false]
      have hres_lt : (f (state.make_move m) alpha).score < beta := by omega
      have hwm_le_res : w m ≤ (f (state.make_move m) alpha).score := by omega
      rw [hMunf]
      generalize hs2 : (if (f (state.make_move m) alpha).score > score then
        (f (state.make_move m) alpha).score else score) = s2
      have hs2eq : s2 = max score (f (state.make_move m) alpha).score := by
        rw [← hs2]
        omega
      have hM2a := foldl_max_init_mono w ms (max score (w m)) s2 (by omega)
      have hM2b := foldl_max_init_mono w ms s2
        (max alpha (max score (w m))) (by omega)
      have hM2c := foldl_max_init_max w ms alpha (max score (w m))
      have ihh := ih (max alpha s2) s2
        (if (f (state.make_move m) alpha).score > score
          then m :: (f (state.make_move m) alpha).moves else best)
        (rem || (f (state.make_move m) alpha).remaining)
        (by omega) (by omega) (by omega) (by omega)
        (fun x hx => hw x (List.mem_cons_of_mem m hx))
        (fun x hx => hchild x (List.mem_cons_of_mem m hx))
      obtain ⟨ih1, ih2, ih3, ih4⟩ := ihh
      exact ⟨by omega, ih2, by omega, by omega⟩


theorem min_loop_spec (f : GameState → Int → DfsResult) (w : Move → Int)
    (state : GameState) (alpha : Int) :
    ∀ (ms : List Move) (beta score : Int) (best : List Move) (rem : Bool),
      score ≤ INF_SCORE → beta ≤ score → alpha < beta → -64 ≤ score →
      (∀ m ∈ ms, -64 ≤ w m ∧ w m ≤ 64) →
      (∀ m ∈ ms, ∀ b, b ≤ INF_SCORE → alpha < b →
        (-64 ≤ (f (state.make_move m) b).score ∧
          (f (state.make_move m) b).score ≤ 64) ∧
        (f (state.make_move m) b).score ≤ max alpha (w m) ∧
        min b (w m) ≤ (f (state.make_move m) b).score) →
      (min_loop f state alpha ms beta score best rem).score ≤ score ∧
      -64 ≤ (min_loop f state alpha ms beta score best rem).score ∧
      min beta (ms.foldl (fun acc m => min acc (w m)) score) ≤
        (min_loop f state alpha ms beta score best rem).score ∧
      (min_loop f state alpha ms beta score best rem).score ≤
        max alpha (ms.foldl (fun acc m => min acc (w m)) score) := by
  intro ms
  induction ms with
  | nil =>
    intro beta score best rem h65 hbs hab h64 _ _
    refine ⟨le_refl _, h64, ?_, ?_⟩
    · show min beta score ≤ score
      omega
    · show score ≤ max alpha score
      omega
  | cons m ms ih =>
    intro beta score best rem h65 hbs hab h64 hw hchild
    have hmem : m ∈ m :: ms := List.mem_cons_self m ms
    obtain ⟨hres_bound, hres_up, hres_lo⟩ :=
      hchild m hmem beta (by omega) hab
    have hwm := hw m hmem
    have hMunf : (m :: ms).foldl (fun acc m => min acc (w m)) score =
        ms.foldl (fun acc m => min acc (w m)) (min score (w m)) := rfl
    have hwm_ge_M : ms.foldl (fun acc m => min acc (w m))
        (min score (w m)) ≤ w m :=
      le_trans (foldl_min_le_init w ms _) (min_le_right _ _)
    have hs_ge_M : ms.foldl (fun acc m => min acc (w m))
        (min score (w m)) ≤ score :=
      le_trans (foldl_min_le_init w ms _) (min_le_left _ _)
    rw [min_loop]
    by_cases hb : (f (state.make_move m) beta).score ≤ alpha
    · simp only [hb, if_pos, ite_true]
      refine ⟨by omega, by omega, ?_, ?_⟩
      · show min beta _ ≤ (if (f (state.make_move m) beta).score < score then
            (f (state.make_move m) beta).score else score)
        rw [hMunf]
        omega
      · show (if (f (state.make_move m) beta).score < score then
            (f (state.make_move m) beta).score else score) ≤ _
        rw [hMunf]
        omega
    · simp only [hb, if_neg, ite_false]
      have hres_gt : alpha < (f (state.make_move m) beta).score := by omega
      have hres_le_wm : (f (state.make_move m) beta).score ≤ w m := by omega
      rw [hMunf]
      generalize hs2 : (if (f (state.make_move m) beta).score < score then
        (f (state.make_move m) beta).score else score) = s2
      have hs2eq : s2 = min score (f (state.make_move m) beta).score := by
        rw [← hs2]
        omega
      have hM2a := foldl_min_init_mono w ms s2 (min score (w m)) (by omega)
      have hM2b := foldl_min_init_mono w ms
        (min beta (min score (w m))) s2 (by omega)
      have hM2c := foldl_min_init_min w ms beta (min score (w m))
      have ihh := ih (min beta s2) s2
        (if (f (state.make_move m) beta).score < score
          then m :: (f (state.make_move m) beta).moves else best)
        (rem || (f (state.make_move m) beta).remaining)
        (by omega) (by omega) (by omega) (by omega)
        (fun x hx => hw x (List.mem_cons_of_mem m hx))
        (fun x hx => hchild x (List.mem_cons_of_mem m hx))
      obtain ⟨ih1, ih2, ih3, ih4⟩ := ihh
      exact ⟨by omega, ih2, by omega, by omega⟩


theorem dfs_contract (player : Player) (max_depth : Nat) (pbv : List Move) :
    ∀ (fuel : Nat) (s : GameState) (alpha beta : Int) (depth : Nat),
      s.black_board < 2 ^ 64 → s.white_board < 2 ^ 64 →
      -INF_SCORE ≤ alpha → beta ≤ INF_SCORE → alpha < beta →
      (-64 ≤ (dfsGo player max_depth pbv fuel s alpha beta depth).score ∧
        (dfsGo player max_depth pbv fuel s alpha beta depth).score ≤ 64) ∧
      (dfsGo player max_depth pbv fuel s alpha beta depth).score ≤
        max alpha (mmGo player fuel s) ∧
      min beta (mmGo player fuel s) ≤
        (dfsGo player max_depth pbv fuel s alpha beta depth).score := by
  intro fuel
  induction fuel with
  | zero =>
    intro s alpha beta depth hb hw ha hbeta hab
    have hINF : INF_SCORE = 65 := rfl
    have hsf := score_func_bound hb hw player
    simp only [dfsGo, mmGo]
    refine ⟨⟨by exact hsf.1, by exact hsf.2⟩, by omega, by omega⟩
  | succ fuel ih =>
    intro s alpha beta depth hb hw ha hbeta hab
    have hINF : INF_SCORE = 65 := rfl
    have hvb := mm_bound player (fuel + 1) s hb hw
    rw [dfsGo, mmGo] at *
    cases hnp : s.next_player with
    | none =>
      have hsf := score_func_bound hb hw player
      dsimp only
      refine ⟨⟨by exact hsf.1, by exact hsf.2⟩, by omega, by omega⟩
    | some np =>
      rw [hnp] at hvb
      dsimp only at hvb ⊢
      have hgcomm : ∀ (i : Int) (a b : Move),
          max (max i (mmGo player fuel (s.make_move a)))
              (mmGo player fuel (s.make_move b)) =
            max (max i (mmGo player fuel (s.make_move b)))
              (mmGo player fuel (s.make_move a)) := by
        intro i a b
        omega
      have hgcomm2 : ∀ (i : Int) (a b : Move),
          min (min i (mmGo player fuel (s.make_move a)))
              (mmGo player fuel (s.make_move b)) =
            min (min i (mmGo player fuel (s.make_move b)))
              (mmGo player fuel (s.make_move a)) := by
        intro i a b
        omega
      by_cases hmx : np = player
      · rw [if_pos hmx] at hvb
        rw [if_pos hmx, if_pos hmx]
        have hspec := max_loop_spec
          (fun s2 a => dfsGo player max_depth pbv fuel s2 a beta (depth + 1))
          (fun m => mmGo player fuel (s.make_move m)) s beta
          (order_moves depth pbv (s.possible_moves np)) alpha (-INF_SCORE)
          [] false (le_refl _) (by omega) hab (by unfold INF_SCORE; omega)
          (fun m hm => mm_bound player fuel _
            (make_move_lt_step (mem_order_moves.mp hm) hb hw).1
            (make_move_lt_step (mem_order_moves.mp hm) hb hw).2)
          (fun m hm a ha2 hab2 => ih (s.make_move m) a beta (depth + 1)
            (make_move_lt_step (mem_order_moves.mp hm) hb hw).1
            (make_move_lt_step (mem_order_moves.mp hm) hb hw).2
            ha2 hbeta hab2)
        have hfold := foldl_order_moves
          (fun acc m => max acc (mmGo player fuel (s.make_move m)))
          hgcomm depth pbv (s.possible_moves np) (-INF_SCORE)
        rw [hfold] at hspec
        obtain ⟨hs1, hs2, hs3, hs4⟩ := hspec
        exact ⟨⟨by omega, hs2⟩, hs3, hs4⟩
      · rw [if_neg hmx] at hvb
        rw [if_neg hmx, if_neg hmx]
        have hspec := min_loop_spec
          (fun s2 b => dfsGo player max_depth pbv fuel s2 alpha b (depth + 1))
          (fun m => mmGo player fuel (s.make_move m)) s alpha
          (order_moves depth pbv (s.possible_moves np)) beta INF_SCORE
          [] false (le_refl _) (by omega) hab (by unfold INF_SCORE; omega)
          (fun m hm => mm_bound player fuel _
            (make_move_lt_step (mem_order_moves.mp hm) hb hw).1
            (make_move_lt_step (mem_order_moves.mp hm) hb hw).2)
          (fun m hm b hb2 hab2 => ih (s.make_move m) alpha b (depth + 1)
            (make_move_lt_step (mem_order_moves.mp hm) hb hw).1
            (make_move_lt_step (mem_order_moves.mp hm) hb hw).2
            ha hb2 hab2)
        have hfold := foldl_order_moves
          (fun acc m => min acc (mmGo player fuel (s.make_move m)))
          hgcomm2 depth pbv (s.possible_moves np) INF_SCORE
        rw [hfold] at hspec
        obtain ⟨hs1, hs2, hs3, hs4⟩ := hspec
        exact ⟨⟨hs2, by omega⟩, hs4, hs3⟩


/-- Claim C1: for every (bit-bounded) game state and every maximum depth,
the score in the result of `dfs_alpha_beta` called at the root with
`alpha = -INF_SCORE` and `beta = INF_SCORE` equals the score computed by
the exhaustive unpruned depth-limited minimax `unpruned_minimax` over the
same state, the same depth limit, the same evaluation function
`score_func`, and the same move sets. -/
theorem alpha_beta_score_eq_minimax (state : GameState) (depth : Nat)
    (player : Player) (max_depth : Nat) (pbv : List Move)
    (hb : state.black_board < 2 ^ 64) (hw : state.white_board < 2 ^ 64) :
    (dfs_alpha_beta state (-INF_SCORE) INF_SCORE depth player max_depth
      pbv).score = unpruned_minimax state depth player max_depth := by
  have hINF : INF_SCORE = 65 := rfl
  have hc := dfs_contract player max_depth pbv (max_depth - depth) state
    (-INF_SCORE) INF_SCORE depth hb hw (le_refl _) (le_refl _)
    (by omega)
  have hv := mm_bound player (max_depth - depth) state hb hw
  unfold dfs_alpha_beta unpruned_minimax
  omega

theorem alpha_beta_score_eq_minimax_witness :
    GameState.start_position.black_board < 2 ^ 64 ∧
    GameState.start_position.white_board < 2 ^ 64 ∧
    (dfs_alpha_beta GameState.start_position (-INF_SCORE) INF_SCORE 0
      Player.Black 2 []).score =
      unpruned_minimax GameState.start_position 0 Player.Black 2 :=
  ⟨by decide, by decide, alpha_beta_score_eq_minimax GameState.start_position
    0 Player.Black 2 [] (by decide) (by decide)⟩


theorem max_loop_moves_preserve (f : GameState → Int → DfsResult)
    (state : GameState) (beta : Int) :
    ∀ (ms : List Move) (alpha score : Int) (best : List Move) (rem : Bool),
      best ≠ [] →
      (max_loop f state beta ms alpha score best rem).moves ≠ [] := by
  intro ms
  induction ms with
  | nil => intro alpha score best rem h; exact h
  | cons m ms ih =>
    intro alpha score best rem h
    rw [max_loop]
    have hbest : (if (f (state.make_move m) alpha).score > score
        then m :: (f (state.make_move m) alpha).moves else best) ≠ [] := by
      by_cases hgt : (f (state.make_move m) alpha).score > score
      · simp [hgt]
      · simp only [hgt, if_neg, ite_false]
        exact h
    by_cases hb : (f (state.make_move m) alpha).score ≥ beta
    · simp only [hb, if_pos, ge_iff_le, ite_true]
      exact hbest
    · simp only [ge_iff_le] at hb
      simp only [ge_iff_le, hb, if_neg, ite_false]
      exact ih _ _ _ _ hbest

theorem min_loop_moves_preserve (f : GameState → Int → DfsResult)
    (state : GameState) (alpha : Int) :
    ∀ (ms : List Move) (beta score : Int) (best : List Move) (rem : Bool),
      best ≠ [] →
      (min_loop f state alpha ms beta score best rem).moves ≠ [] := by
  intro ms
  induction ms with
  | nil => intro beta score best rem h; exact h
  | cons m ms ih =>
    intro beta score best rem h
    rw [min_loop]
    have hbest : (if (f (state.make_move m) beta).score < score
        then m :: (f (state.make_move m) beta).moves else best) ≠ [] := by
      by_cases hgt : (f (state.make_move m) beta).score < score
      · simp [hgt]
      · simp only [hgt, if_neg, ite_false]
        exact h
    by_cases hb : (f (state.make_move m) beta).score ≤ alpha
    · simp only [hb, if_pos, ite_true]
      exact hbest
    · simp only [hb, if_neg, ite_false]
      exact ih _ _ _ _ hbest

theorem max_loop_moves_ne_nil (f : GameState → Int → DfsResult)
    (state : GameState) (beta : Int) (m : Move) (ms : List Move)
    (alpha score : Int) (best : List Move) (rem : Bool)
    (hgt : (f (state.make_move m) alpha).score > score) :
    (max_loop f state beta (m :: ms) alpha score best rem).moves ≠ [] := by
  rw [max_loop]
  by_cases hb : (f (state.make_move m) alpha).score ≥ beta
  · simp [hb, hgt]
  · simp only [ge_iff_le] at hb
    simp only [ge_iff_le, hb, hgt, if_neg, if_pos, ite_true, ite_false]
    apply max_loop_moves_preserve
    simp

theorem min_loop_moves_ne_nil (f : GameState → Int → DfsResult)
    (state : GameState) (alpha : Int) (m : Move) (ms : List Move)
    (beta score : Int) (best : List Move) (rem : Bool)
    (hlt : (f (state.make_move m) beta).score < score) :
    (min_loop f state alpha (m :: ms) beta score best rem).moves ≠ [] := by
  rw [min_loop]
  by_cases hb : (f (state.make_move m) beta).score ≤ alpha
  · simp [hb, hlt]
  · simp only [hb, hlt, if_neg, if_pos, ite_true, ite_false]
    apply min_loop_moves_preserve
    simp

theorem dfsGo_moves_ne_nil (player : Player) (max_depth : Nat)
    (pbv : List Move) (fuel : Nat) (s : GameState) (depth : Nat)
    (hb : s.black_board < 2 ^ 64) (hw : s.white_board < 2 ^ 64)
    {np : Player} (hnp : s.next_player = some np) :
    (dfsGo player max_depth pbv (fuel + 1) s (-INF_SCORE) INF_SCORE
      depth).moves ≠ [] := by
  have hINF : INF_SCORE = 65 := rfl
  rw [dfsGo, hnp]
  dsimp only
  obtain ⟨m0, hm0⟩ := exists_mem_of_ne_nil (next_player_moves_ne_nil hnp)
  have hm0o : m0 ∈ order_moves depth pbv (s.possible_moves np) :=
    mem_order_moves.mpr hm0
  obtain ⟨mh, mt, hml⟩ : ∃ mh mt,
      order_moves depth pbv (s.possible_moves np) = mh :: mt := by
    cases hl : order_moves depth pbv (s.possible_moves np) with
    | nil =>
      rw [hl] at hm0o
      cases hm0o
    | cons a l => exact ⟨a, l, rfl⟩
  have hmhmem : mh ∈ s.possible_moves np := by
    apply mem_order_moves.mp
    rw [hml]
    exact List.mem_cons_self mh mt
  have hcb := make_move_lt_step hmhmem hb hw
  rw [hml]
  by_cases hmx : np = player
  · rw [if_pos hmx]
    apply max_loop_moves_ne_nil
    have hc := dfs_contract player max_depth pbv fuel (s.make_move mh)
      (-INF_SCORE) INF_SCORE (depth + 1) hcb.1 hcb.2 (le_refl _) (le_refl _)
      (by unfold INF_SCORE; omega)
    omega
  · rw [if_neg hmx]
    apply min_loop_moves_ne_nil
    have hc := dfs_contract player max_depth pbv fuel (s.make_move mh)
      (-INF_SCORE) INF_SCORE (depth + 1) hcb.1 hcb.2 (le_refl _) (le_refl _)
      (by unfold INF_SCORE; omega)
    omega


theorem dfs_alpha_beta_root_ne_nil (s : GameState) (player : Player)
    (max_depth : Nat) (pbv : List Move)
    (hb : s.black_board < 2 ^ 64) (hw : s.white_board < 2 ^ 64)
    {np : Player} (hnp : s.next_player = some np) (hmd : 1 ≤ max_depth) :
    (dfs_alpha_beta s (-INF_SCORE) INF_SCORE 0 player max_depth
      pbv).moves ≠ [] := by
  unfold dfs_alpha_beta
  have h1 : max_depth - 0 = (max_depth - 1) + 1 := by omega
  rw [h1]
  exact dfsGo_moves_ne_nil player max_depth pbv (max_depth - 1) s 0 hb hw hnp

theorem id_go_ne_nil (s : GameState) (player : Player) (max_depth : Nat)
    (hb : s.black_board < 2 ^ 64) (hw : s.white_board < 2 ^ 64)
    {np : Player} (hnp : s.next_player = some np) :
    ∀ (iters current_depth : Nat) (pbv : List Move),
      1 ≤ current_depth → current_depth ≤ max_depth →
      current_depth + iters = max_depth + 1 →
      ∃ r, id_go s player max_depth iters current_depth pbv = some r ∧
        r.moves ≠ [] := by
  intro iters
  induction iters with
  | zero =>
    intro current_depth pbv h1 h2 h3
    omega
  | succ iters ih =>
    intro current_depth pbv h1 h2 h3
    rw [id_go]
    have hne := dfs_alpha_beta_root_ne_nil s player current_depth pbv hb hw
      hnp h1
    by_cases hcond : (!(dfs_alpha_beta s (-INF_SCORE) INF_SCORE 0 player
        current_depth pbv).remaining || current_depth == max_depth) = true
    · rw [if_pos hcond]
      exact ⟨_, rfl, hne⟩
    · rw [if_neg hcond]
      have hlt : current_depth < max_depth := by
        by_contra hge
        have : current_depth = max_depth := by omega
        subst this
        simp at hcond
      exact ih (current_depth + 1) _ (by omega) (by omega) (by omega)

/-- Claim C10: `INF_SCORE = 65` strictly exceeds the absolute value of
`score_func` on every (bit-bounded) state, and consequently for every
state whose `next_player()` is not `None` and every `max_depth ≥ 1`,
`dfs_alpha_beta` at the root with the full window returns a non-empty
principal variation, and `iterative_deepening` returns a result with a
non-empty move list — so `SimpleAgent.search`'s access of
`res.moves[0]` cannot fail while the game is not over. -/
theorem inf_score_bound_and_pv_nonempty (s : GameState) (player : Player)
    (max_depth : Nat) (pbv : List Move)
    (hb : s.black_board < 2 ^ 64) (hw : s.white_board < 2 ^ 64)
    {np : Player} (hnp : s.next_player = some np) (hmd : 1 ≤ max_depth) :
    (∀ p, |score_func s p| < INF_SCORE) ∧
    (dfs_alpha_beta s (-INF_SCORE) INF_SCORE 0 player max_depth
      pbv).moves ≠ [] ∧
    (∃ r, iterative_deepening s player max_depth = some r ∧
      r.moves ≠ []) := by
  have hINF : INF_SCORE = 65 := rfl
  refine ⟨?_, dfs_alpha_beta_root_ne_nil s player max_depth pbv hb hw hnp hmd,
    ?_⟩
  · intro p
    have hsf := score_func_bound hb hw p
    rw [abs_lt]
    constructor <;> omega
  · unfold iterative_deepening
    exact id_go_ne_nil s player max_depth hb hw hnp max_depth 1 []
      (le_refl _) hmd (by omega)

/-- Witness for C10 at the start position with `max_depth = 1`. -/
theorem inf_score_bound_and_pv_nonempty_witness :
    GameState.start_position.black_board < 2 ^ 64 ∧
    GameState.start_position.next_player = some Player.Black ∧
    (dfs_alpha_beta GameState.start_position (-INF_SCORE) INF_SCORE 0
      Player.Black 1 []).moves ≠ [] ∧
    (∃ r, iterative_deepening GameState.start_position Player.Black 1 =
      some r ∧ r.moves ≠ []) := by
  have h := @inf_score_bound_and_pv_nonempty GameState.start_position
    Player.Black 1 [] (by decide) (by decide) Player.Black (by decide)
    (le_refl _)
  exact ⟨by decide, by decide, h.2.1, h.2.2⟩


theorem is_occupied_lor (r c : Int) (a b : Nat) :
    is_occupied r c (a ||| b) = (is_occupied r c a || is_occupied r c b) := by
  rw [is_occupied_eq_testBit, is_occupied_eq_testBit, is_occupied_eq_testBit,
    Nat.testBit_or]

theorem is_occupied_xor (r c : Int) (a b : Nat) :
    is_occupied r c (a ^^^ b) =
      (is_occupied r c a).xor (is_occupied r c b) := by
  rw [is_occupied_eq_testBit, is_occupied_eq_testBit, is_occupied_eq_testBit,
    Nat.testBit_xor]

theorem occupied_mono {r c : Int} {a b : Nat} (h : a &&& b = a)
    (ho : is_occupied r c a = true) : is_occupied r c b = true := by
  rw [is_occupied_eq_testBit] at ho ⊢
  exact testBit_of_land_eq h ho

theorem occupied_disjoint {r c : Int} {a b : Nat} (h : a &&& b = 0)
    (ho : is_occupied r c a = true) : is_occupied r c b = false := by
  rw [is_occupied_eq_testBit] at ho ⊢
  exact land_zero_bit h ho

theorem runLen_bounds (row col dr dc : Int) (opp : Nat) :
    ∀ (fuel : Nat) (i : Int),
      i ≤ runLen row col dr dc opp fuel i ∧
        runLen row col dr dc opp fuel i ≤ i + (fuel : Int) := by
  intro fuel
  induction fuel with
  | zero =>
    intro i
    rw [runLen]
    push_cast
    omega
  | succ fuel ih =>
    intro i
    rw [runLen]
    by_cases hc : (is_inbounds (row + dr * i) (col + dc * i) &&
        is_occupied (row + dr * i) (col + dc * i) opp) = true
    · rw [if_pos hc]
      have := ih (i + 1)
      constructor
      · omega
      · push_cast
        omega
    · rw [if_neg hc]
      constructor
      · omega
      · push_cast
        omega

theorem runLen_run (row col dr dc : Int) (opp : Nat) :
    ∀ (fuel : Nat) (i t : Int), i ≤ t →
      t < runLen row col dr dc opp fuel i →
      is_inbounds (row + dr * t) (col + dc * t) = true ∧
        is_occupied (row + dr * t) (col + dc * t) opp = true := by
  intro fuel
  induction fuel with
  | zero =>
    intro i t h1 h2
    rw [runLen] at h2
    omega
  | succ fuel ih =>
    intro i t h1 h2
    rw [runLen] at h2
    by_cases hc : (is_inbounds (row + dr * i) (col + dc * i) &&
        is_occupied (row + dr * i) (col + dc * i) opp) = true
    · rw [if_pos hc] at h2
      rcases eq_or_lt_of_le h1 with heq | hlt
      · subst heq
        exact ⟨(Bool.and_eq_true_iff.mp hc).1, (Bool.and_eq_true_iff.mp hc).2⟩
      · exact ih (i + 1) t (by omega) h2
    · rw [if_neg hc] at h2
      omega

theorem runLen_stop (row col dr dc : Int) (opp : Nat) :
    ∀ (fuel : Nat) (i : Int),
      runLen row col dr dc opp fuel i < i + (fuel : Int) →
      ¬(is_inbounds (row + dr * runLen row col dr dc opp fuel i)
          (col + dc * runLen row col dr dc opp fuel i) = true ∧
        is_occupied (row + dr * runLen row col dr dc opp fuel i)
          (col + dc * runLen row col dr dc opp fuel i) opp = true) := by
  intro fuel
  induction fuel with
  | zero =>
    intro i h
    rw [runLen] at h
    simp at h
  | succ fuel ih =>
    intro i h
    rw [runLen] at h ⊢
    by_cases hc : (is_inbounds (row + dr * i) (col + dc * i) &&
        is_occupied (row + dr * i) (col + dc * i) opp) = true
    · rw [if_pos hc] at h ⊢
      apply ih (i + 1)
      push_cast at h ⊢
      omega
    · rw [if_neg hc] at h ⊢
      intro hcon
      exact hc (Bool.and_eq_true_iff.mpr ⟨hcon.1, hcon.2⟩)

theorem runLen_eq_of (row col dr dc : Int) (opp : Nat) :
    ∀ (fuel : Nat) (i j : Int), i ≤ j → j ≤ i + (fuel : Int) →
      (∀ t, i ≤ t → t < j →
        is_inbounds (row + dr * t) (col + dc * t) = true ∧
          is_occupied (row + dr * t) (col + dc * t) opp = true) →
      (j = i + (fuel : Int) ∨
        ¬(is_inbounds (row + dr * j) (col + dc * j) = true ∧
          is_occupied (row + dr * j) (col + dc * j) opp = true)) →
      runLen row col dr dc opp fuel i = j := by
  intro fuel
  induction fuel with
  | zero =>
    intro i j h1 h2 _ _
    rw [runLen]
    push_cast at h2
    omega
  | succ fuel ih =>
    intro i j h1 h2 hrun hstop
    rw [runLen]
    rcases eq_or_lt_of_le h1 with heq | hlt
    · rcases hstop with hs | hs
      · push_cast at hs
        omega
      · have hc : ¬(is_inbounds (row + dr * i) (col + dc * i) &&
            is_occupied (row + dr * i) (col + dc * i) opp) = true := by
          rw [heq]
          intro hcc
          exact hs (Bool.and_eq_true_iff.mp hcc)
        rw [if_neg hc]
        exact heq
    · have hi := hrun i (le_refl i) hlt
      have hc : (is_inbounds (row + dr * i) (col + dc * i) &&
          is_occupied (row + dr * i) (col + dc * i) opp) = true :=
        Bool.and_eq_true_iff.mpr ⟨hi.1, hi.2⟩
      rw [if_pos hc]
      apply ih (i + 1) j (by omega) (by push_cast at h2 ⊢; omega)
        (fun t ht1 ht2 => hrun t (by omega) ht2)
      rcases hstop with hs | hs
      · left
        push_cast at hs ⊢
        omega
      · right
        exact hs


theorem testBit_rayBits (row col dr dc : Int) :
    ∀ (n : Nat) (i : Int) (k : Nat),
      (rayBits row col dr dc n i).testBit k = true ↔
        ∃ t : Int, i ≤ t ∧ t < i + (n : Int) ∧
          k = (rc2ind (row + dr * t) (col + dc * t)).toNat := by
  intro n
  induction n with
  | zero =>
    intro i k
    constructor
    · intro h
      rw [rayBits] at h
      simp at h
    · rintro ⟨t, h1, h2, _⟩
      push_cast at h2
      omega
  | succ n ih =>
    intro i k
    rw [rayBits, Nat.testBit_or]
    constructor
    · intro h
      rcases Bool.or_eq_true_iff.mp h with h | h
      · rw [testBit_rc2board] at h
        refine ⟨i, le_refl i, by push_cast; omega, ?_⟩
        exact (of_decide_eq_true h).symm
      · obtain ⟨t, h1, h2, hk⟩ := (ih (i + 1) k).mp h
        refine ⟨t, by omega, by push_cast at h2 ⊢; omega, hk⟩
    · rintro ⟨t, h1, h2, hk⟩
      apply Bool.or_eq_true_iff.mpr
      rcases eq_or_lt_of_le h1 with heq | hlt
      · left
        rw [← heq] at hk
        rw [testBit_rc2board]
        exact decide_eq_true hk.symm
      · right
        exact (ih (i + 1) k).mpr ⟨t, by omega, by push_cast at h2 ⊢; omega, hk⟩

theorem ffadAux_char (row col dr dc : Int) (my opp : Nat)
    (hdisj : my &&& opp = 0) :
    ∀ (fuel : Nat) (i : Int) (pattern : Nat),
      ffadAux row col dr dc my opp fuel i pattern =
        if runLen row col dr dc opp fuel i < i + (fuel : Int) ∧
            is_inbounds (row + dr * runLen row col dr dc opp fuel i)
              (col + dc * runLen row col dr dc opp fuel i) = true ∧
            is_occupied (row + dr * runLen row col dr dc opp fuel i)
              (col + dc * runLen row col dr dc opp fuel i) my = true
        then pattern ||| rayBits row col dr dc
          ((runLen row col dr dc opp fuel i) - i).toNat i
        else 0 := by
  intro fuel
  induction fuel with
  | zero =>
    intro i pattern
    rw [ffadAux, runLen]
    have hc : ¬((i : Int) < i + ((0 : Nat) : Int) ∧
        is_inbounds (row + dr * i) (col + dc * i) = true ∧
        is_occupied (row + dr * i) (col + dc * i) my = true) := by
      intro hcon
      have := hcon.1
      push_cast at this
      omega
    rw [if_neg hc]
  | succ fuel ih =>
    intro i pattern
    simp only [ffadAux]
    by_cases hin : is_inbounds (row + dr * i) (col + dc * i) = false
    · rw [if_pos hin]
      have hrl : runLen row col dr dc opp (fuel + 1) i = i := by
        rw [runLen]
        rw [if_neg (by rw [hin]; simp)]
      rw [hrl]
      have hc : ¬(i < i + ((fuel + 1 : Nat) : Int) ∧
          is_inbounds (row + dr * i) (col + dc * i) = true ∧
          is_occupied (row + dr * i) (col + dc * i) my = true) := by
        intro hcon
        rw [hcon.2.1] at hin
        cases hin
      rw [if_neg hc]
    · rw [if_neg hin]
      have hin2 : is_inbounds (row + dr * i) (col + dc * i) = true := by
        cases h : is_inbounds (row + dr * i) (col + dc * i)
        · exact absurd h hin
        · rfl
      by_cases hmy : is_occupied (row + dr * i) (col + dc * i) my = true
      · rw [if_pos hmy]
        have hopp : is_occupied (row + dr * i) (col + dc * i) opp = false :=
          occupied_disjoint hdisj hmy
        have hrl : runLen row col dr dc opp (fuel + 1) i = i := by
          rw [runLen]
          rw [if_neg (by rw [hopp]; simp)]
        rw [hrl]
        have hc : i < i + ((fuel + 1 : Nat) : Int) ∧
            is_inbounds (row + dr * i) (col + dc * i) = true ∧
            is_occupied (row + dr * i) (col + dc * i) my = true := by
          refine ⟨by push_cast; omega, hin2, hmy⟩
        rw [if_pos hc, Int.sub_self]
        show pattern = pattern ||| rayBits row col dr dc 0 i
        rw [rayBits]
        simp
      · rw [if_neg hmy]
        have hmy2 : is_occupied (row + dr * i) (col + dc * i) my = false := by
          cases h : is_occupied (row + dr * i) (col + dc * i) my
          · rfl
          · exact absurd h hmy
        by_cases hopp : is_occupied (row + dr * i) (col + dc * i) opp = true
        · rw [if_pos hopp]
          rw [ih (i + 1) (pattern ||| rc2board (row + dr * i) (col + dc * i))]
          have hrl : runLen row col dr dc opp (fuel + 1) i =
              runLen row col dr dc opp fuel (i + 1) := by
            rw [runLen]
            rw [if_pos (by rw [hin2, hopp]; rfl)]
          rw [hrl]
          have hj1 : i + 1 ≤ runLen row col dr dc opp fuel (i + 1) :=
            (runLen_bounds row col dr dc opp fuel (i + 1)).1
          by_cases hcond : runLen row col dr dc opp fuel (i + 1) <
              (i + 1) + (fuel : Int) ∧
              is_inbounds (row + dr * runLen row col dr dc opp fuel (i + 1))
                (col + dc * runLen row col dr dc opp fuel (i + 1)) = true ∧
              is_occupied (row + dr * runLen row col dr dc opp fuel (i + 1))
                (col + dc * runLen row col dr dc opp fuel (i + 1)) my = true
          · rw [if_pos hcond]
            rw [if_pos (by
              refine ⟨?_, hcond.2.1, hcond.2.2⟩
              have := hcond.1
              push_cast at this ⊢
              omega)]
            have hsplit : (runLen row col dr dc opp fuel (i + 1) - i).toNat =
                (runLen row col dr dc opp fuel (i + 1) - (i + 1)).toNat + 1 := by
              omega
            rw [hsplit, rayBits, Nat.or_assoc]
          · rw [if_neg hcond]
            rw [if_neg (by
              intro hcon
              apply hcond
              refine ⟨?_, hcon.2.1, hcon.2.2⟩
              have h1 := hcon.1
              have h2 := runLen_bounds row col dr dc opp fuel (i + 1)
              push_cast at h1 ⊢
              omega)]
        · rw [if_neg hopp]
          have hopp2 : is_occupied (row + dr * i) (col + dc * i) opp
              = false := by
            cases h : is_occupied (row + dr * i) (col + dc * i) opp
            · rfl
            · exact absurd h hopp
          have hrl : runLen row col dr dc opp (fuel + 1) i = i := by
            rw [runLen]
            rw [if_neg (by rw [hopp2]; simp)]
          rw [hrl]
          rw [if_neg (by
            intro hcon
            rw [hcon.2.2] at hmy2
            cases hmy2)]


theorem ray_inj (dr1 dc1 dr2 dc2 t1 t2 : Int)
    (hr1 : dr1 = 0 ∨ dr1 = 1 ∨ dr1 = -1)
    (hc1 : dc1 = 0 ∨ dc1 = 1 ∨ dc1 = -1)
    (h01 : ¬(dr1 = 0 ∧ dc1 = 0))
    (hr2 : dr2 = 0 ∨ dr2 = 1 ∨ dr2 = -1)
    (hc2 : dc2 = 0 ∨ dc2 = 1 ∨ dc2 = -1)
    (h02 : ¬(dr2 = 0 ∧ dc2 = 0))
    (ht1 : 1 ≤ t1) (ht2 : 1 ≤ t2)
    (he1 : dr1 * t1 = dr2 * t2) (he2 : dc1 * t1 = dc2 * t2) :
    dr1 = dr2 ∧ dc1 = dc2 ∧ t1 = t2 := by
  rcases hr1 with rfl | rfl | rfl <;> rcases hc1 with rfl | rfl | rfl <;>
    rcases hr2 with rfl | rfl | rfl <;> rcases hc2 with rfl | rfl | rfl <;>
    omega

theorem ffad_char (row col dr dc : Int) (my opp : Nat)
    (hdisj : my &&& opp = 0) :
    find_flips_along_direction row col dr dc my opp =
      if runLen row col dr dc opp 7 1 < 8 ∧
          is_inbounds (row + dr * runLen row col dr dc opp 7 1)
            (col + dc * runLen row col dr dc opp 7 1) = true ∧
          is_occupied (row + dr * runLen row col dr dc opp 7 1)
            (col + dc * runLen row col dr dc opp 7 1) my = true
      then rayBits row col dr dc ((runLen row col dr dc opp 7 1) - 1).toNat 1
      else 0 := by
  unfold find_flips_along_direction
  rw [ffadAux_char row col dr dc my opp hdisj 7 1 0]
  by_cases hcond : runLen row col dr dc opp 7 1 < (1 : Int) + ((7 : Nat) : Int) ∧
      is_inbounds (row + dr * runLen row col dr dc opp 7 1)
        (col + dc * runLen row col dr dc opp 7 1) = true ∧
      is_occupied (row + dr * runLen row col dr dc opp 7 1)
        (col + dc * runLen row col dr dc opp 7 1) my = true
  · rw [if_pos hcond, if_pos ⟨by
      have := hcond.1
      push_cast at this
      omega, hcond.2.1, hcond.2.2⟩]
    rw [Nat.zero_or]
  · rw [if_neg hcond, if_neg (by
      intro hcon
      exact hcond ⟨by
        have := hcon.1
        push_cast
        omega, hcon.2.1, hcon.2.2⟩)]

theorem ffad_bit_to_ray {row col dr dc : Int} {my opp : Nat}
    (hdisj : my &&& opp = 0) {k : Nat}
    (hk : (find_flips_along_direction row col dr dc my opp).testBit k
      = true) :
    ∃ t : Int, 1 ≤ t ∧ t < runLen row col dr dc opp 7 1 ∧
      is_inbounds (row + dr * t) (col + dc * t) = true ∧
      is_occupied (row + dr * t) (col + dc * t) opp = true ∧
      k = (rc2ind (row + dr * t) (col + dc * t)).toNat := by
  rw [ffad_char row col dr dc my opp hdisj] at hk
  by_cases hcond : runLen row col dr dc opp 7 1 < 8 ∧
      is_inbounds (row + dr * runLen row col dr dc opp 7 1)
        (col + dc * runLen row col dr dc opp 7 1) = true ∧
      is_occupied (row + dr * runLen row col dr dc opp 7 1)
        (col + dc * runLen row col dr dc opp 7 1) my = true
  · rw [if_pos hcond] at hk
    obtain ⟨t, h1, h2, hk2⟩ := (testBit_rayBits row col dr dc
      ((runLen row col dr dc opp 7 1) - 1).toNat 1 k).mp hk
    have hrb := runLen_bounds row col dr dc opp 7 1
    have h2b : t < runLen row col dr dc opp 7 1 := by omega
    have hrun := runLen_run row col dr dc opp 7 1 t h1 h2b
    exact ⟨t, h1, h2b, hrun.1, hrun.2, hk2⟩
  · rw [if_neg hcond] at hk
    simp at hk

theorem flip_forward_aux {row col er ec dr dc : Int} {my opp : Nat}
    (hdisj : my &&& opp = 0)
    (her : er = 0 ∨ er = 1 ∨ er = -1) (hec : ec = 0 ∨ ec = 1 ∨ ec = -1)
    (he0 : ¬(er = 0 ∧ ec = 0))
    (hr : dr = 0 ∨ dr = 1 ∨ dr = -1) (hc : dc = 0 ∨ dc = 1 ∨ dc = -1)
    (h0 : ¬(dr = 0 ∧ dc = 0)) {t : Int} (ht : 1 ≤ t)
    (hinb : is_inbounds (row + dr * t) (col + dc * t) = true)
    (hk : (find_flips_along_direction row col er ec my opp).testBit
      ((rc2ind (row + dr * t) (col + dc * t)).toNat) = true) :
    (find_flips_along_direction row col dr dc my opp).testBit
      ((rc2ind (row + dr * t) (col + dc * t)).toNat) = true := by
  obtain ⟨t2, h1, h2, hinb2, hocc2, hk2⟩ := ffad_bit_to_ray hdisj hk
  obtain ⟨hre, hce⟩ := rc2ind_toNat_inj hinb2 hinb hk2.symm
  have he1 : er * t2 = dr * t := by omega
  have he2 : ec * t2 = dc * t := by omega
  obtain ⟨hdr, hdc, ht2⟩ := ray_inj er ec dr dc t2 t her hec he0 hr hc h0
    h1 ht he1 he2
  subst hdr
  subst hdc
  subst ht2
  exact hk

theorem flip_localize (row col : Int) (my opp : Nat)
    (hdisj : my &&& opp = 0) (dr dc : Int)
    (hr : dr = 0 ∨ dr = 1 ∨ dr = -1) (hc : dc = 0 ∨ dc = 1 ∨ dc = -1)
    (h0 : ¬(dr = 0 ∧ dc = 0)) (t : Int) (ht : 1 ≤ t)
    (hinb : is_inbounds (row + dr * t) (col + dc * t) = true) :
    (find_flips row col my opp).testBit
        ((rc2ind (row + dr * t) (col + dc * t)).toNat) =
      (find_flips_along_direction row col dr dc my opp).testBit
        ((rc2ind (row + dr * t) (col + dc * t)).toNat) := by
  have forward : (find_flips row col my opp).testBit
      ((rc2ind (row + dr * t) (col + dc * t)).toNat) = true →
      (find_flips_along_direction row col dr dc my opp).testBit
        ((rc2ind (row + dr * t) (col + dc * t)).toNat) = true := by
    intro hk
    simp only [find_flips, Nat.testBit_or, Bool.or_eq_true] at hk
    rcases hk with ((((((hk | hk) | hk) | hk) | hk) | hk) | hk) | hk <;>
      exact flip_forward_aux hdisj (by omega) (by omega) (by omega)
        hr hc h0 ht hinb hk
  have backward : (find_flips_along_direction row col dr dc my opp).testBit
      ((rc2ind (row + dr * t) (col + dc * t)).toNat) = true →
      (find_flips row col my opp).testBit
        ((rc2ind (row + dr * t) (col + dc * t)).toNat) = true := by
    intro hP
    rcases hr with rfl | rfl | rfl <;> rcases hc with rfl | rfl | rfl <;>
    first
    | omega
    | (simp only [find_flips, Nat.testBit_or, Bool.or_eq_true]
       tauto)
  cases hP : (find_flips_along_direction row col dr dc my opp).testBit
      ((rc2ind (row + dr * t) (col + dc * t)).toNat) with
  | false =>
    cases hF : (find_flips row col my opp).testBit
        ((rc2ind (row + dr * t) (col + dc * t)).toNat) with
    | false => rfl
    | true =>
      have hT := forward hF
      rw [hT] at hP
      cases hP
  | true => exact backward hP

theorem ray_step_ne_zero {dr dc t : Int}
    (hr : dr = 0 ∨ dr = 1 ∨ dr = -1) (hc : dc = 0 ∨ dc = 1 ∨ dc = -1)
    (h0 : ¬(dr = 0 ∧ dc = 0)) (ht : 1 ≤ t) :
    ¬(dr * t = 0 ∧ dc * t = 0) := by
  rcases hr with rfl | rfl | rfl <;> rcases hc with rfl | rfl | rfl <;> omega

theorem post_scan_zero_dir (row col dr dc : Int) (my opp flip : Nat)
    (hr : dr = 0 ∨ dr = 1 ∨ dr = -1) (hc : dc = 0 ∨ dc = 1 ∨ dc = -1)
    (h0 : ¬(dr = 0 ∧ dc = 0))
    (hrcinb : is_inbounds row col = true)
    (hdisj : my &&& opp = 0)
    (hposmy : rc2board row col &&& my = 0)
    (hposopp : rc2board row col &&& opp = 0)
    (hflip : flip &&& opp = flip)
    (hflipeq : flip = find_flips row col my opp) :
    find_flips_along_direction row col dr dc
      (my ||| rc2board row col ||| flip) (opp ^^^ flip) = 0 := by
  have hmu := move_update_facts my opp (rc2board row col) flip hdisj
    hposmy hposopp hflip
  have hdisj2 : (my ||| rc2board row col ||| flip) &&& (opp ^^^ flip) = 0 := by
    rw [← hmu.1]
    exact hmu.2.1
  rw [ffad_char row col dr dc _ _ hdisj2]
  set j := runLen row col dr dc (opp ^^^ flip) 7 1 with hjdef
  by_cases hcond : j < 8 ∧
      is_inbounds (row + dr * j) (col + dc * j) = true ∧
      is_occupied (row + dr * j) (col + dc * j)
        (my ||| rc2board row col ||| flip) = true
  · rw [if_pos hcond]
    have hj1 : (1 : Int) ≤ j := (runLen_bounds row col dr dc (opp ^^^ flip) 7 1).1
    rcases eq_or_lt_of_le hj1 with hjeq | hj2
    · rw [← hjeq]
      have h0t : ((1 : Int) - 1).toNat = 0 := rfl
      rw [h0t]
      rfl
    · exfalso
      obtain ⟨hjlt, hinbS, hmyS⟩ := hcond
      have hray1 := runLen_run row col dr dc (opp ^^^ flip) 7 1 1
        (le_refl 1) (by omega)
      have hflipsub : ∀ k : Nat, flip.testBit k = true →
          opp.testBit k = true :=
        fun k hk => testBit_of_land_eq hflip hk
      have hoppx : ∀ r c : Int, is_occupied r c (opp ^^^ flip) = true →
          is_occupied r c opp = true ∧
          flip.testBit ((rc2ind r c).toNat) = false := by
        intro r c h
        rw [is_occupied_eq_testBit, Nat.testBit_xor] at h
        rw [is_occupied_eq_testBit]
        cases hf : flip.testBit ((rc2ind r c).toNat)
        · refine ⟨?_, rfl⟩
          cases ho : opp.testBit ((rc2ind r c).toNat)
          · rw [ho, hf] at h
            cases h
          · rfl
        · have ho := hflipsub _ hf
          rw [ho, hf] at h
          cases h
      have h1opp := hoppx _ _ hray1.2
      have hposS : (rc2board row col).testBit
          ((rc2ind (row + dr * j) (col + dc * j)).toNat) = false := by
        rw [testBit_rc2board]
        apply decide_eq_false
        intro he
        obtain ⟨her, hec⟩ := rc2ind_toNat_inj hrcinb hinbS he
        exact @ray_step_ne_zero dr dc j hr hc h0 (by omega)
          ⟨by omega, by omega⟩
      have hmyS' := hmyS
      rw [is_occupied_eq_testBit] at hmyS'
      simp only [Nat.testBit_or, hposS, Bool.or_false] at hmyS'
      have hb1 : (find_flips_along_direction row col dr dc my opp).testBit
          ((rc2ind (row + dr * 1) (col + dc * 1)).toNat) = true := by
        rcases Bool.or_eq_true_iff.mp hmyS' with hmS | hfS
        · -- the stop cell holds a pre-existing mover stone: the pre-move
          -- scan along this direction succeeds with the same run
          have hpreRun : runLen row col dr dc opp 7 1 = j := by
            apply runLen_eq_of row col dr dc opp 7 1 j (by omega)
              (by push_cast; omega)
            · intro t ht1 ht2
              have hrt := runLen_run row col dr dc (opp ^^^ flip) 7 1 t ht1 ht2
              exact ⟨hrt.1, (hoppx _ _ hrt.2).1⟩
            · right
              intro hcon
              have hof : opp.testBit
                  ((rc2ind (row + dr * j) (col + dc * j)).toNat) = false :=
                land_zero_bit hdisj hmS
              have hot := hcon.2
              rw [is_occupied_eq_testBit] at hot
              rw [hof] at hot
              cases hot
          have hpre : runLen row col dr dc opp 7 1 < 8 ∧
              is_inbounds (row + dr * runLen row col dr dc opp 7 1)
                (col + dc * runLen row col dr dc opp 7 1) = true ∧
              is_occupied (row + dr * runLen row col dr dc opp 7 1)
                (col + dc * runLen row col dr dc opp 7 1) my = true := by
            rw [hpreRun]
            refine ⟨hjlt, hinbS, ?_⟩
            rw [is_occupied_eq_testBit]
            exact hmS
          rw [ffad_char row col dr dc my opp hdisj, if_pos hpre, hpreRun]
          exact (testBit_rayBits row col dr dc (j - 1).toNat 1 _).mpr
            ⟨1, le_refl 1, by omega, rfl⟩
        · -- the stop cell was itself flipped: the pre-move scan along this
          -- direction also contains the first ray cell
          have hfS2 : (find_flips_along_direction row col dr dc my
              opp).testBit ((rc2ind (row + dr * j) (col + dc * j)).toNat)
              = true := by
            rw [hflipeq] at hfS
            rw [flip_localize row col my opp hdisj dr dc hr hc h0 j
              (by omega) hinbS] at hfS
            exact hfS
          rw [ffad_char row col dr dc my opp hdisj] at hfS2 ⊢
          by_cases hpre : runLen row col dr dc opp 7 1 < 8 ∧
              is_inbounds (row + dr * runLen row col dr dc opp 7 1)
                (col + dc * runLen row col dr dc opp 7 1) = true ∧
              is_occupied (row + dr * runLen row col dr dc opp 7 1)
                (col + dc * runLen row col dr dc opp 7 1) my = true
          · rw [if_pos hpre] at hfS2 ⊢
            obtain ⟨t2, ht21, ht22, hk2⟩ := (testBit_rayBits row col dr dc
              _ 1 _).mp hfS2
            exact (testBit_rayBits row col dr dc _ 1 _).mpr
              ⟨1, le_refl 1, by omega, rfl⟩
          · rw [if_neg hpre] at hfS2
            simp at hfS2
      have hb1' : flip.testBit
          ((rc2ind (row + dr * 1) (col + dc * 1)).toNat) = true := by
        rw [hflipeq, flip_localize row col my opp hdisj dr dc hr hc h0 1
          (le_refl 1) hray1.1]
        exact hb1
      rw [h1opp.2] at hb1'
      cases hb1'
  · rw [if_neg hcond]

/-- Claim C8: applying a legal move adds the mover's stone at the move's
`(row, col)`, switches ownership of exactly the cells of the move's flip
mask from the opponent to the mover, leaves every other cell unchanged,
and re-deriving the flip mask for the mover at the same coordinate on the
resulting boards yields the empty set. -/
theorem make_move_flip_exact {s : GameState} {p : Player} {m : Move}
    (hm : m ∈ s.possible_moves p)
    (hdisj : s.black_board &&& s.white_board = 0) :
    (is_occupied m.row m.col (player_board s p) = false ∧
     is_occupied m.row m.col (player_board s p.opponent) = false ∧
     is_occupied m.row m.col (player_board (s.make_move m) p) = true ∧
     is_occupied m.row m.col (player_board (s.make_move m) p.opponent)
       = false) ∧
    (∀ r c : Int, is_inbounds r c = true →
      m.flip_board.testBit (rc2ind r c).toNat = true →
      is_occupied r c (player_board s p.opponent) = true ∧
      is_occupied r c (player_board s p) = false ∧
      is_occupied r c (player_board (s.make_move m) p) = true ∧
      is_occupied r c (player_board (s.make_move m) p.opponent) = false) ∧
    (∀ r c : Int, is_inbounds r c = true → ¬(r = m.row ∧ c = m.col) →
      m.flip_board.testBit (rc2ind r c).toNat = false →
      is_occupied r c (player_board (s.make_move m) p) =
        is_occupied r c (player_board s p) ∧
      is_occupied r c (player_board (s.make_move m) p.opponent) =
        is_occupied r c (player_board s p.opponent)) ∧
    find_flips m.row m.col (player_board (s.make_move m) p)
      (player_board (s.make_move m) p.opponent) = 0 := by
  obtain ⟨hinb, hpl, hposmy, hposopp, hflip, hflipeq, hfne⟩ :=
    move_mem_facts hm
  have hdisjp : player_board s p &&& player_board s p.opponent = 0 := by
    cases p
    · exact hdisj
    · rw [Nat.land_comm]
      exact hdisj
  have hb := make_move_boards s m
  rw [hpl] at hb
  have hmu := move_update_facts (player_board s p)
    (player_board s p.opponent) (rc2board m.row m.col) m.flip_board
    hdisjp hposmy hposopp hflip
  have hmy' : player_board (s.make_move m) p =
      player_board s p ||| rc2board m.row m.col ||| m.flip_board := by
    rw [hb.1, hmu.1]
  have hopp' : player_board (s.make_move m) p.opponent =
      player_board s p.opponent ^^^ m.flip_board := hb.2.1
  have hposbit : (rc2board m.row m.col).testBit
      ((rc2ind m.row m.col).toNat) = true := by
    rw [testBit_rc2board]
    exact decide_eq_true rfl
  have hmybit0 : (player_board s p).testBit
      ((rc2ind m.row m.col).toNat) = false :=
    land_zero_bit hposmy hposbit
  have hoppbit0 : (player_board s p.opponent).testBit
      ((rc2ind m.row m.col).toNat) = false :=
    land_zero_bit hposopp hposbit
  have hflipbit0 : m.flip_board.testBit
      ((rc2ind m.row m.col).toNat) = false := by
    cases hf : m.flip_board.testBit ((rc2ind m.row m.col).toNat)
    · rfl
    · have ho := testBit_of_land_eq hflip hf
      rw [hoppbit0] at ho
      cases ho
  refine ⟨⟨?_, ?_, ?_, ?_⟩, ?_, ?_, ?_⟩
  · rw [is_occupied_eq_testBit]
    exact hmybit0
  · rw [is_occupied_eq_testBit]
    exact hoppbit0
  · rw [hmy', is_occupied_eq_testBit]
    simp [Nat.testBit_or, hposbit]
  · rw [hopp', is_occupied_eq_testBit, Nat.testBit_xor, hoppbit0, hflipbit0]
    rfl
  · intro r c hrcinb hf
    have hob : (player_board s p.opponent).testBit ((rc2ind r c).toNat)
        = true := testBit_of_land_eq hflip hf
    have hmb : (player_board s p).testBit ((rc2ind r c).toNat) = false := by
      have h2 : player_board s p.opponent &&& player_board s p = 0 := by
        rw [Nat.land_comm]
        exact hdisjp
      exact land_zero_bit h2 hob
    refine ⟨?_, ?_, ?_, ?_⟩
    · rw [is_occupied_eq_testBit]
      exact hob
    · rw [is_occupied_eq_testBit]
      exact hmb
    · rw [hmy', is_occupied_eq_testBit]
      simp [Nat.testBit_or, hf]
    · rw [hopp', is_occupied_eq_testBit, Nat.testBit_xor, hob, hf]
      rfl
  · intro r c hrcinb hne hf
    have hpb : (rc2board m.row m.col).testBit ((rc2ind r c).toNat)
        = false := by
      rw [testBit_rc2board]
      apply decide_eq_false
      intro he
      obtain ⟨h1, h2⟩ := rc2ind_toNat_inj hinb hrcinb he
      exact hne ⟨h1.symm, h2.symm⟩
    constructor
    · rw [hmy', is_occupied_eq_testBit, is_occupied_eq_testBit]
      simp [Nat.testBit_or, hpb, hf]
    · rw [hopp', is_occupied_eq_testBit, is_occupied_eq_testBit,
        Nat.testBit_xor, hf]
      simp
  · rw [hmy', hopp']
    unfold find_flips
    rw [post_scan_zero_dir m.row m.col 0 1 _ _ _ (by omega) (by omega)
        (by omega) hinb hdisjp hposmy hposopp hflip hflipeq,
      post_scan_zero_dir m.row m.col 0 (-1) _ _ _ (by omega) (by omega)
        (by omega) hinb hdisjp hposmy hposopp hflip hflipeq,
      post_scan_zero_dir m.row m.col 1 0 _ _ _ (by omega) (by omega)
        (by omega) hinb hdisjp hposmy hposopp hflip hflipeq,
      post_scan_zero_dir m.row m.col (-1) 0 _ _ _ (by omega) (by omega)
        (by omega) hinb hdisjp hposmy hposopp hflip hflipeq,
      post_scan_zero_dir m.row m.col (-1) (-1) _ _ _ (by omega) (by omega)
        (by omega) hinb hdisjp hposmy hposopp hflip hflipeq,
      post_scan_zero_dir m.row m.col 1 (-1) _ _ _ (by omega) (by omega)
        (by omega) hinb hdisjp hposmy hposopp hflip hflipeq,
      post_scan_zero_dir m.row m.col (-1) 1 _ _ _ (by omega) (by omega)
        (by omega) hinb hdisjp hposmy hposopp hflip hflipeq,
      post_scan_zero_dir m.row m.col 1 1 _ _ _ (by omega) (by omega)
        (by omega) hinb hdisjp hposmy hposopp hflip hflipeq]
    rfl

/-- Witness for claim C8 at the start position and the legal Black move
`d3`: the hypotheses hold there and rescanning the flip mask on the
resulting boards yields the empty set. -/
theorem make_move_flip_exact_witness :
    (⟨2, 3, find_flips 2 3 GameState.start_position.black_board
        GameState.start_position.white_board, .Black⟩ : Move) ∈
      GameState.start_position.possible_moves .Black ∧
    GameState.start_position.black_board &&&
      GameState.start_position.white_board = 0 ∧
    find_flips 2 3
      (player_board (GameState.start_position.make_move
        ⟨2, 3, find_flips 2 3 GameState.start_position.black_board
          GameState.start_position.white_board, .Black⟩) .Black)
      (player_board (GameState.start_position.make_move
        ⟨2, 3, find_flips 2 3 GameState.start_position.black_board
          GameState.start_position.white_board, .Black⟩)
        (Player.opponent .Black)) = 0 :=
  ⟨by decide, by decide,
    (@make_move_flip_exact GameState.start_position .Black
      ⟨2, 3, find_flips 2 3 GameState.start_position.black_board
        GameState.start_position.white_board, .Black⟩
      (by decide) (by decide)).2.2.2⟩

end RT
